import Mathlib

/-!
Verification development for the MindCLI retrieval stack.

Shallow embedding of the Go sources of the repository:
  - internal/storage/vector.go      (VectorStore over an HNSW graph)
  - internal/storage/sqlite.go      (Catalog: documents, chunks, tags, memberships)
  - internal/storage/models.go      (Document, Chunk records)
  - internal/embeddings  (cache.go) (encodeEmbedding / decodeEmbedding)
  - internal/query/parser.go        (ParseQuery)
  - internal/query       (hybrid)   (HybridSearcher.Search / fuseResults / extractDocID)
  - internal/index       (indexer)  (worker body, embedDocument, RemoveFile)
  - pkg/chunker/chunker.go          (Split and its helpers)

Modelling conventions, used throughout:
  - Go strings are modelled as `List Char` (one entry per rune).  Positions are
    rune counts; for ASCII text these coincide with Go byte offsets, and every
    concrete input used below is ASCII.
  - Go `float32` values are modelled by their IEEE-754 bit patterns as `Nat`
    (below `2^32`).  `math.Float32bits` / `math.Float32frombits` are mutually
    inverse bijections between `float32` and 32-bit patterns, so nothing is
    lost; `float64` scores computed by exact field operations are modelled
    over `ℚ`.
  - Go maps used as dictionaries are modelled as association lists in
    insertion order; where Go map iteration order matters behaviourally
    (ParseQuery) the order is an explicit parameter ranging over the
    permutations of the canonical table.
  - Fallible Go functions returning `(T, error)` are modelled as `Except Err T`.
  - A Go runtime panic (out-of-range slice) is modelled by `Option.none`.
-/

namespace Mindcli

/-- Go strings as rune lists. -/
abbrev GoStr := List Char

/-- Literal helper: a Lean string literal viewed as a rune list. -/
def gs (s : String) : GoStr := s.data

/-- Element of Go `unicode.IsSpace` (the White_Space property table),
written over code points. -/
def isGoSpace (c : Char) : Bool :=
  (0x09 <= c.toNat && c.toNat <= 0x0d) || c.toNat == 0x20 ||
  c.toNat == 0x85 || c.toNat == 0xa0 || c.toNat == 0x1680 ||
  (0x2000 <= c.toNat && c.toNat <= 0x200a) ||
  c.toNat == 0x2028 || c.toNat == 0x2029 || c.toNat == 0x202f ||
  c.toNat == 0x205f || c.toNat == 0x3000

/-- Drop trailing elements satisfying `p` (helper for TrimSpace). -/
def dropRightWhile (p : Char → Bool) (s : GoStr) : GoStr :=
  ((s.reverse).dropWhile p).reverse

/-- Go `strings.TrimSpace`. -/
def trimSpace (s : GoStr) : GoStr :=
  dropRightWhile isGoSpace (s.dropWhile isGoSpace)

/-- Go `strings.HasPrefix s pat`. -/
def hasPfx (s pat : GoStr) : Bool := pat.isPrefixOf s

/-- Go `strings.TrimPrefix s pat`: drops `pat` when it is a prefix of `s`. -/
def trimPfx (s pat : GoStr) : GoStr :=
  if hasPfx s pat then s.drop pat.length else s

/-- Go `strings.Index s pat` (first index where `pat` occurs), `none` for -1. -/
def goIndex (s pat : GoStr) : Option Nat :=
  if hasPfx s pat then some 0
  else
    match s with
    | [] => none
    | _ :: rest => (goIndex rest pat).map (· + 1)

/-- Go `strings.Contains s pat`. -/
def goContains (s pat : GoStr) : Bool := (goIndex s pat).isSome

/-- Go `strings.Replace s old new 1`: replace the first occurrence only. -/
def replaceOnce (s old new : GoStr) : GoStr :=
  match goIndex s old with
  | none => s
  | some i => s.take i ++ new ++ s.drop (i + old.length)

/-- Go `strings.ToLower` (ASCII case folding; all concrete inputs are ASCII). -/
def toLowerStr (s : GoStr) : GoStr := s.map Char.toLower

/-- Go `strings.LastIndex s ":"` specialised to a single rune, `none` for -1. -/
def goLastIndexChar (s : GoStr) (c : Char) : Option Nat :=
  match s with
  | [] => none
  | a :: rest =>
    match goLastIndexChar rest c with
    | some i => some (i + 1)
    | none => if a = c then some 0 else none

/-! ## Vector store (internal/storage/vector.go)

The HNSW graph is modelled as the association list of its keyed nodes:
`graph.Delete k` removes the node with key `k`, `graph.Add` appends nodes,
`graph.Len` is the node count.  `VectorStore` methods mirror vector.go
line by line (the `sync.RWMutex` guards no observable state and is omitted). -/

/-- State of a `VectorStore`: the keyed nodes of the HNSW graph. -/
structure VectorStore where
  entries : List (GoStr × List Nat)
deriving DecidableEq

/-- Method `VectorStore.Delete` (vector.go): remove a vector by key. -/
def VectorStore.delete (v : VectorStore) (key : GoStr) : VectorStore :=
  ⟨v.entries.filter (fun e => e.1 ≠ key)⟩

/-- Method `VectorStore.Add` (vector.go): delete existing entry, then insert. -/
def VectorStore.add (v : VectorStore) (key : GoStr) (vec : List Nat) : VectorStore :=
  ⟨(v.delete key).entries ++ [(key, vec)]⟩

/-- Method `VectorStore.AddBatch` (vector.go): on a length mismatch between
`keys` and `vectors` it returns immediately (no error value exists in the Go
signature); otherwise it deletes every key in the loop building the node
array and finally adds all nodes. -/
def VectorStore.addBatch (v : VectorStore) (keys : List GoStr) (vectors : List (List Nat)) :
    VectorStore :=
  if keys.length ≠ vectors.length then v
  else ⟨(keys.foldl (fun es k => VectorStore.delete ⟨es⟩ k |>.entries) v.entries)
        ++ keys.zip vectors⟩

/-- Method `VectorStore.DeleteByPrefix` (vector.go, lines 99-106): the body
only takes and releases the lock; no graph operation is performed, as its own
comment concedes (there is no iteration API, "we rely on the caller knowing
the keys").  The model is therefore the identity on the store. -/
def deleteByPfx (v : VectorStore) (pre : GoStr) : VectorStore :=
  v

/-- Method `VectorStore.Len` (vector.go). -/
def VectorStore.len (v : VectorStore) : Nat := v.entries.length

/-! ## Embedding blob codec (internal/embeddings, part_006)

`encodeEmbedding` packs each float32 as 4 little-endian bytes via
`binary.LittleEndian.PutUint32 buf[i*4:] (math.Float32bits v)`;
`decodeEmbedding` reads the groups back.  Elements are carried as their
32-bit patterns (`Nat < 2^32`); bytes are `Nat < 256`. -/

/-- Little-endian byte quadruple of a 32-bit pattern
(`binary.LittleEndian.PutUint32`). -/
def putUint32LE (x : Nat) : List Nat :=
  [x % 256, x / 2 ^ 8 % 256, x / 2 ^ 16 % 256, x / 2 ^ 24 % 256]

/-- Function `encodeEmbedding` (part_006 lines 124-131). -/
def encodeEmbedding (emb : List Nat) : List Nat :=
  (emb.map putUint32LE).flatten

/-- Reassemble a 32-bit pattern from little-endian bytes
(`binary.LittleEndian.Uint32`). -/
def uint32LE (b0 b1 b2 b3 : Nat) : Nat :=
  b0 + 2 ^ 8 * b1 + 2 ^ 16 * b2 + 2 ^ 24 * b3

/-- Function `decodeEmbedding` (part_006 lines 133-140): reads
`len(buf)/4` little-endian groups; a trailing fragment shorter than 4
bytes is ignored, exactly as integer division does in the Go code. -/
def decodeEmbedding : List Nat → List Nat
  | b0 :: b1 :: b2 :: b3 :: rest => uint32LE b0 b1 b2 b3 :: decodeEmbedding rest
  | _ => []

/-! ## Query parser (internal/query/parser.go)

`ParseQuery` iterates the Go map `sourceKeywords` with `range`; Go map
iteration order is unspecified and randomised per run.  The model therefore
takes the traversal order as an explicit parameter `order`, constrained in
the theorems to be a permutation of the canonical table; a Go execution of
`ParseQuery q` computes `parseQueryWith order q` for some such `order`.
`timeKeywords` is a slice, so its order is fixed. -/

/-- Intent constants of parser.go. -/
inductive QueryIntent where
  | search
  | summarize
  | answer
deriving DecidableEq

/-- Record `ParsedQuery` of parser.go. -/
structure ParsedQuery where
  original : GoStr
  intent : QueryIntent
  searchTerms : GoStr
  timeFilter : GoStr
  sourceFilter : GoStr
deriving DecidableEq

/-- Map literal `sourceKeywords` of parser.go (lines 126-135), in source
order of the entries. -/
def sourceKeywords : List (GoStr × GoStr) :=
  [(gs "in my notes", gs "markdown"),
   (gs "in my emails", gs "email"),
   (gs "in emails", gs "email"),
   (gs "from browser", gs "browser"),
   (gs "in browser", gs "browser"),
   (gs "from clipboard", gs "clipboard"),
   (gs "in pdfs", gs "pdf"),
   (gs "in pdf", gs "pdf")]

/-- Slice literal `timeKeywords` of parser.go (lines 145-148). -/
def timeKeywords : List GoStr :=
  [gs "last week", gs "last month", gs "yesterday", gs "today",
   gs "this week", gs "this month", gs "last year"]

/-- Function `ParseQuery` (parser.go lines 105-159), with the iteration
order of the `sourceKeywords` map as the explicit parameter `order`.
The `for ... range` loops with `break` are `List.find?`. -/
def parseQueryWith (order : List (GoStr × GoStr)) (query : GoStr) : ParsedQuery :=
  let query := trimSpace query
  let lower := toLowerStr query
  let p0 : ParsedQuery := ⟨query, .search, query, [], []⟩
  let p1 :=
    if hasPfx lower (gs "summarize ") || hasPfx lower (gs "summary of ") then
      { p0 with intent := .summarize,
                searchTerms := trimPfx (trimPfx lower (gs "summarize ")) (gs "summary of ") }
    else if hasPfx lower (gs "what ") || hasPfx lower (gs "how ") ||
            hasPfx lower (gs "why ") || hasPfx lower (gs "when ") ||
            hasPfx lower (gs "who ") || hasPfx lower (gs "tell me ") then
      { p0 with intent := .answer }
    else p0
  let p2 :=
    match order.find? (fun kv => goContains lower kv.1) with
    | some kv => { p1 with sourceFilter := kv.2, searchTerms := replaceOnce lower kv.1 [] }
    | none => p1
  let p3 :=
    match timeKeywords.find? (fun kw => goContains lower kw) with
    | some kw => { p2 with timeFilter := kw, searchTerms := replaceOnce p2.searchTerms kw [] }
    | none => p2
  { p3 with searchTerms := trimSpace p3.searchTerms }

/-! ## Shared records (internal/storage/models.go) -/

/-- Record `storage.Document` (models.go lines 21-32); `time.Time` fields are
carried as unix seconds, which is the only way the indexer inspects them. -/
structure Document where
  id : GoStr
  source : GoStr
  path : GoStr
  title : GoStr
  content : GoStr
  preview : GoStr
  metadata : List (GoStr × GoStr)
  contentHash : GoStr
  indexedAtUnix : Int
  modifiedAtUnix : Int
deriving DecidableEq

/-- Error values surfaced by the storage and search layers
(`ErrNotFound`, `ErrCollectionExists`, wrapped backend / io errors). -/
inductive Err where
  | notFound
  | collectionExists
  | backend (msg : GoStr)
  | io (msg : GoStr)
deriving DecidableEq

deriving instance DecidableEq for Except

/-! ## Hybrid search (internal/query, part_012)

`fuseResults` builds a `map[string]*fusedEntry`, then collects the values
and sorts them with `sort.Slice` using the strict comparator
`rrfScore i > rrfScore j`.  The map is modelled as an association list in
insertion order and the sort as insertion sort for the reflexive relation
`rrfGE`; every Go execution returns some list sorted by non-increasing
`rrfScore` that is a permutation of this one and agrees with it wherever
scores are pairwise distinct (as they are in all concrete fixtures used
below). -/

/-- Record `search.SearchResult` (part_009 lines 121-125); `Highlights` is
`map[string][]string`, modelled as an association list. -/
structure BMResult where
  id : GoStr
  score : ℚ
  highlights : List (GoStr × List GoStr)
deriving DecidableEq

/-- Record `storage.VectorResult` (vector.go lines 127-132). -/
structure VecResult where
  key : GoStr
  score : ℚ
  similarity : ℚ
deriving DecidableEq

/-- Record `fusedEntry` (part_012 lines 97-105). -/
structure FusedEntry where
  docID : GoStr
  bm25Score : ℚ
  vecScore : ℚ
  rrfScore : ℚ
  chunkKey : GoStr
  highlights : List (GoStr × List GoStr)
deriving DecidableEq

/-- Function `extractDocID` (part_012 lines 230-236): prefix before the
last colon, or the whole key if it has none. -/
def extractDocID (chunkKey : GoStr) : GoStr :=
  match goLastIndexChar chunkKey ':' with
  | some i => chunkKey.take i
  | none => chunkKey

/-- Update-or-insert on the association list modelling the Go map
`entries[docID]`: apply `f` if the key is present, append `(k, init)`
otherwise. -/
def updateEntry (l : List (GoStr × FusedEntry)) (k : GoStr)
    (f : FusedEntry → FusedEntry) (init : FusedEntry) : List (GoStr × FusedEntry) :=
  match l with
  | [] => [(k, init)]
  | (k0, e0) :: rest =>
    if k0 = k then (k0, f e0) :: rest else (k0, e0) :: updateEntry rest k f init

/-- Association-list key lookup for the fused-entry map. -/
def lookupEntry : List (GoStr × FusedEntry) → GoStr → Option FusedEntry
  | [], _ => none
  | (k, e) :: rest, d => if k = d then some e else lookupEntry rest d

/-- First loop of `fuseResults` (part_012 lines 117-132): fold the BM25
result list, rank by rank, into the entries map.  `contrib` is
`bm25Weight * (1 / float64(k+rank+1))` with `k = 60`. -/
def bmPass (w : ℚ) : Nat → List BMResult → List (GoStr × FusedEntry) →
    List (GoStr × FusedEntry)
  | _, [], acc => acc
  | rank, r :: rest, acc =>
    let contrib := (1 - w) * (1 / (60 + (rank : ℚ) + 1))
    bmPass w (rank + 1) rest (updateEntry acc r.id
      (fun e => { e with rrfScore := e.rrfScore + contrib,
                         bm25Score := r.score,
                         highlights := r.highlights })
      ⟨r.id, r.score, 0, contrib, [], r.highlights⟩)

/-- Second loop of `fuseResults` (part_012 lines 134-153): fold the vector
result list into the entries map, keyed by `extractDocID`. -/
def vecPass (w : ℚ) : Nat → List VecResult → List (GoStr × FusedEntry) →
    List (GoStr × FusedEntry)
  | _, [], acc => acc
  | rank, r :: rest, acc =>
    let docID := extractDocID r.key
    let contrib := w * (1 / (60 + (rank : ℚ) + 1))
    vecPass w (rank + 1) rest (updateEntry acc docID
      (fun e => { e with rrfScore := e.rrfScore + contrib,
                         vecScore := r.score,
                         chunkKey := if e.chunkKey = [] then r.key else e.chunkKey })
      ⟨docID, 0, r.score, contrib, r.key, []⟩)

/-- Comparison used by the final `sort.Slice`: non-increasing `rrfScore`. -/
def rrfGE (a b : FusedEntry) : Prop := b.rrfScore ≤ a.rrfScore

instance : DecidableRel rrfGE :=
  fun a b => inferInstanceAs (Decidable (b.rrfScore ≤ a.rrfScore))

instance : IsTotal FusedEntry rrfGE :=
  ⟨fun a b => le_total b.rrfScore a.rrfScore⟩

instance : IsTrans FusedEntry rrfGE :=
  ⟨fun _ _ _ hab hbc => le_trans hbc hab⟩

/-- Method `HybridSearcher.fuseResults` (part_012 lines 107-165). -/
def fuseResults (w : ℚ) (bm : List BMResult) (vec : List VecResult) :
    List FusedEntry :=
  List.insertionSort rrfGE ((vecPass w 0 vec (bmPass w 0 bm [])).map Prod.snd)

/-- Specification-side formula (claim C3): the weighted BM25 half of the
reciprocal-rank sum for document `d`, starting at `rank`. -/
def bmSum (w : ℚ) (d : GoStr) : Nat → List BMResult → ℚ
  | _, [] => 0
  | rank, r :: rest =>
    (if r.id = d then (1 - w) * (1 / (60 + (rank : ℚ) + 1)) else 0) +
      bmSum w d (rank + 1) rest

/-- Specification-side formula (claim C3): the weighted vector half of the
reciprocal-rank sum for document `d`, starting at `rank`. -/
def vecSum (w : ℚ) (d : GoStr) : Nat → List VecResult → ℚ
  | _, [] => 0
  | rank, r :: rest =>
    (if extractDocID r.key = d then w * (1 / (60 + (rank : ℚ) + 1)) else 0) +
      vecSum w d (rank + 1) rest

/-- Specification-side fused score of claim C3: sum over the ranks of `d` in
the BM25 list of `(1-w)/(60+r+1)` plus sum over the ranks whose key maps to
`d` in the vector list of `w/(60+r+1)`. -/
def rrfSpecScore (w : ℚ) (bm : List BMResult) (vec : List VecResult)
    (d : GoStr) : ℚ :=
  bmSum w d 0 bm + vecSum w d 0 vec

/-- Fixture S3, BM25 leg: `[doc1(1.5), doc2(1.0), doc3(0.5)]`. -/
def s3BM : List BMResult :=
  [⟨gs "doc1", 3 / 2, []⟩, ⟨gs "doc2", 1, []⟩, ⟨gs "doc3", 1 / 2, []⟩]

/-- Fixture S3, vector leg: `[doc3:0(0.95), doc1:0(0.8), doc4:0(0.7)]`. -/
def s3Vec : List VecResult :=
  [⟨gs "doc3:0", 19 / 20, 19 / 20⟩, ⟨gs "doc1:0", 4 / 5, 4 / 5⟩,
   ⟨gs "doc4:0", 7 / 10, 7 / 10⟩]

/-- Record `storage.SearchResult` (models.go lines 71-78). -/
structure SearchResultRec where
  document : Document
  score : ℚ
  bm25Score : ℚ
  vectorScore : ℚ
  highlights : List GoStr
  chunkID : GoStr
deriving DecidableEq

/-- Collaborators of `HybridSearcher.Search` as oracles: Bleve search,
the embedder, the (approximate, external) HNSW graph search, and the
Catalog lookup `DB.GetDocument`. -/
structure HSEnv where
  bleveSearch : GoStr → Int → Except Err (List BMResult)
  embed : GoStr → Except Err (List Nat)
  graphSearch : VectorStore → List Nat → Int → List VecResult
  getDocument : GoStr → Except Err Document

/-- State of a `HybridSearcher` (part_012 lines 14-23): optional vector
store, presence of the embedder, and the hybrid weight. -/
structure HybridSearcher where
  vectors : Option VectorStore
  hasEmbedder : Bool
  hybridWeight : ℚ

/-- Flattening of the per-field highlight fragments as done in
`buildResults` and `bm25Only` (iteration order of the highlights map is
modelled as insertion order; no claim depends on it). -/
def flattenHighlights (h : List (GoStr × List GoStr)) : List GoStr :=
  (h.map Prod.snd).flatten

/-- Method `HybridSearcher.bm25Only` (part_012 lines 200-228): forward the
query to Bleve with the caller's limit, materialise documents from the
Catalog (skipping failures), and set both `Score` and `BM25Score` to the
BM25 score. -/
def bm25Only (env : HSEnv) (q : GoStr) (limit : Int) :
    Except Err (List SearchResultRec) :=
  match env.bleveSearch q limit with
  | .error e => .error e
  | .ok rs => .ok (rs.filterMap (fun r =>
      match env.getDocument r.id with
      | .error _ => none
      | .ok doc => some ⟨doc, r.score, r.score, 0, flattenHighlights r.highlights, []⟩))

/-- Method `HybridSearcher.buildResults` (part_012 lines 167-198). -/
def buildResults (env : HSEnv) (fused : List FusedEntry) (limit : Int) :
    List SearchResultRec :=
  let fused := if (fused.length : Int) > limit then fused.take limit.toNat else fused
  fused.filterMap (fun f =>
    match env.getDocument f.docID with
    | .error _ => none
    | .ok doc =>
      some ⟨doc, f.rrfScore, f.bm25Score, f.vecScore,
            flattenHighlights f.highlights, f.chunkKey⟩)

/-- Method `HybridSearcher.Search` (part_012 lines 44-95).  The two legs run
in goroutines and both channels are read before any branch, so the outcome
is a function of the two leg results.  Branch order follows the source:
missing vectors or embedder or empty store → BM25 only; vector-leg error →
BM25 only; BM25-leg error → propagate; otherwise fuse and materialise. -/
def HybridSearcher.search (h : HybridSearcher) (env : HSEnv) (q : GoStr)
    (limit : Int) : Except Err (List SearchResultRec) :=
  match h.vectors with
  | none => bm25Only env q limit
  | some vs =>
    if h.hasEmbedder = false then bm25Only env q limit
    else if vs.len = 0 then bm25Only env q limit
    else
      let bmRes := env.bleveSearch q (limit * 2)
      let vecRes : Except Err (List VecResult) :=
        match env.embed q with
        | .error e => .error e
        | .ok emb => .ok (env.graphSearch vs emb (limit * 2))
      match vecRes with
      | .error _ => bm25Only env q limit
      | .ok vres =>
        match bmRes with
        | .error e => .error e
        | .ok bres => .ok (buildResults env (fuseResults h.hybridWeight bres vres) limit)

/-- Score read-out from the fused-entries map, zero when the key is absent. -/
def lookupRRF (l : List (GoStr × FusedEntry)) (d : GoStr) : ℚ :=
  match lookupEntry l d with
  | some e => e.rrfScore
  | none => 0

/-- Every value of the fused-entries map records its own key in `docID`. -/
def KeysOwn (l : List (GoStr × FusedEntry)) : Prop :=
  ∀ p ∈ l, p.2.docID = p.1

/-! ## Chunker (pkg/chunker/chunker.go)

Text positions are rune counts (identical to Go byte offsets on ASCII
text; all concrete inputs below are ASCII).  Go slice expressions whose
bounds are provably in range are modelled by the clamping `slice`; the one
slice whose bounds can go out of range at runtime
(`fullText[overlapStart:prevEnd]` in `applyOverlap`) is modelled by
`sliceChecked`, with `none` standing for the Go panic. -/

/-- Record `chunker.Chunk` (chunker.go lines 17-21); positions are Go ints. -/
structure Chunk where
  content : GoStr
  startPos : Int
  endPos : Int
deriving DecidableEq

/-- Record `chunker.Options` (chunker.go lines 24-27). -/
structure ChunkOptions where
  chunkSize : Int
  overlap : Int
deriving DecidableEq

/-- Constant `DefaultChunkSize`. -/
def defaultChunkSize : Int := 512

/-- Constant `DefaultOverlap`. -/
def defaultOverlap : Int := 64

/-- Function `DefaultOptions` (chunker.go lines 30-35). -/
def defaultOptions : ChunkOptions := ⟨defaultChunkSize, defaultOverlap⟩

/-- Internal record `segment` (chunker.go lines 98-102); its positions are
always non-negative, so they are carried as `Nat`. -/
structure Segment where
  content : GoStr
  startPos : Nat
  endPos : Nat
deriving DecidableEq

/-- Go slice expression `s[a:b]` at in-range indices (the clamping never
takes effect where this is used). -/
def slice (s : GoStr) (a b : Nat) : GoStr := (s.drop a).take (b - a)

/-- Go slice expression `s[a:b]` with `Int` indices at a site where the Go
program can panic; `none` models the out-of-range panic. -/
def sliceChecked (s : GoStr) (a b : Int) : Option GoStr :=
  if 0 ≤ a ∧ a ≤ b ∧ b ≤ (s.length : Int) then some (slice s a.toNat b.toNat)
  else none

/-- Loop of `splitParagraphs` (chunker.go lines 66-95), recursing on the
scan position `start`: find the next blank line, emit the trimmed paragraph
when non-empty, continue two runes past the `\n\n`; the final paragraph
spans to the end of the text. -/
def splitParagraphsAux (text : GoStr) (start : Nat) : List Segment :=
  if h : start < text.length then
    match goIndex (text.drop start) (gs "\n\n") with
    | none => [⟨trimSpace (text.drop start), start, text.length⟩]
    | some i =>
      let endp := start + i
      let para := trimSpace (slice text start endp)
      (if para ≠ [] then [⟨para, start, endp⟩] else []) ++
        splitParagraphsAux text (endp + 2)
  else []
termination_by text.length - start
decreasing_by omega

/-- Function `splitParagraphs` (chunker.go lines 66-95). -/
def splitParagraphs (text : GoStr) : List Segment :=
  splitParagraphsAux text 0

/-- Predicate for the sentence terminators of `findSentences`. -/
def isTerm (c : Char) : Bool := c = '.' || c = '!' || c = '?'

/-- Go `unicode.IsUpper` (ASCII range; all concrete inputs are ASCII). -/
def isUpperGo (c : Char) : Bool := c.isUpper

/-- Whitespace-skip loop of `findSentences` (chunker.go lines 236-238):
the final value of `i` after `for i+1 < len && IsSpace(runes[i+1]) (i++)`,
which advances `i` by the length of the whitespace run after it. -/
def skipWs (runes : GoStr) (i : Nat) : Nat :=
  i + ((runes.drop (i + 1)).takeWhile isGoSpace).length

/-- Main loop of `findSentences` (chunker.go lines 215-258): at a
terminator followed by end-of-text or whitespace-then-uppercase, emit the
trimmed sentence, skip trailing whitespace and restart; otherwise advance.
After the loop the remaining text forms a final sentence. -/
def findSentencesAux (runes : GoStr) (start i : Nat) : List Segment :=
  if h : i < runes.length then
    if isTerm (runes.getD i ' ') ∧
        (i + 1 ≥ runes.length ∨
         (i + 2 < runes.length ∧ isGoSpace (runes.getD (i + 1) ' ') ∧
          isUpperGo (runes.getD (i + 2) ' '))) then
      let sent := trimSpace (slice runes start (i + 1))
      let i2 := skipWs runes i
      (if sent ≠ [] then [⟨sent, start, i + 1⟩] else []) ++
        findSentencesAux runes (i2 + 1) (i2 + 1)
    else
      findSentencesAux runes start (i + 1)
  else
    if start < runes.length then
      let sent := trimSpace (runes.drop start)
      if sent ≠ [] then [⟨sent, start, runes.length⟩] else []
    else []
termination_by runes.length - i
decreasing_by
  · simp only [skipWs]
    omega
  · omega

/-- Function `findSentences` (chunker.go lines 215-258). -/
def findSentences (text : GoStr) : List Segment :=
  findSentencesAux text 0 0

/-- Flush of the sentence builder (chunker.go lines 180-188 and 201-209):
one chunk when the trimmed builder is non-empty. -/
def sentFlush (basePos : Nat) (current : GoStr) (currentStart : Nat) : List Chunk :=
  let content := trimSpace current
  if content ≠ [] then
    [⟨content, (basePos + currentStart : Int),
      (basePos + currentStart + current.length : Int)⟩]
  else []

/-- Loop of `splitBySentences` (chunker.go lines 173-199) over the sentence
list, carrying the builder and its start position. -/
def sentLoop (basePos : Nat) (opts : ChunkOptions) :
    List Segment → GoStr → Nat → List Chunk
  | [], current, currentStart => sentFlush basePos current currentStart
  | sent :: rest, current, currentStart =>
    let projected := current.length + (if current.length > 0 then 1 else 0) +
      sent.content.length
    if (projected : Int) > opts.chunkSize ∧ current.length > 0 then
      sentFlush basePos current currentStart ++
        sentLoop basePos opts rest sent.content sent.startPos
    else
      if current.length = 0 then
        sentLoop basePos opts rest sent.content sent.startPos
      else
        sentLoop basePos opts rest (current ++ ' ' :: sent.content) currentStart

/-- Function `splitBySentences` (chunker.go lines 163-212). -/
def splitBySentences (text : GoStr) (basePos : Nat) (opts : ChunkOptions) :
    List Chunk :=
  let sentences := findSentences text
  if sentences = [] then
    [⟨text, (basePos : Int), (basePos + text.length : Int)⟩]
  else sentLoop basePos opts sentences [] 0

/-- Closure `flush` of `mergeAndSplit` (chunker.go lines 111-122):
one chunk when the trimmed builder is non-empty; `currentStart` is the Go
`int` sentinel, `-1` while the builder is empty. -/
def mergeFlush (current : GoStr) (currentStart : Int) : List Chunk :=
  let content := trimSpace current
  if content ≠ [] then
    [⟨content, currentStart, currentStart + current.length⟩]
  else []

/-- Loop of `mergeAndSplit` (chunker.go lines 124-152) over the paragraph
list: oversized paragraphs are flushed around and split by sentences;
otherwise paragraphs are merged greedily with a `\n\n` separator, flushing
when the projected size exceeds the chunk size. -/
def mergeLoop (opts : ChunkOptions) :
    List Segment → GoStr → Int → List Chunk
  | [], current, currentStart => mergeFlush current currentStart
  | para :: rest, current, currentStart =>
    if (para.content.length : Int) > opts.chunkSize then
      mergeFlush current currentStart ++
        splitBySentences para.content para.startPos opts ++
        mergeLoop opts rest [] (-1)
    else
      let projected := current.length + (if current.length > 0 then 2 else 0) +
        para.content.length
      if (projected : Int) > opts.chunkSize ∧ current.length > 0 then
        mergeFlush current currentStart ++
          mergeLoop opts rest para.content (para.startPos : Int)
      else
        let newStart := if currentStart = -1 then (para.startPos : Int) else currentStart
        let newCurrent :=
          if current.length > 0 then current ++ gs "\n\n" ++ para.content
          else current ++ para.content
        mergeLoop opts rest newCurrent newStart

/-- Loops of `findWordBoundary` (chunker.go lines 306-312): skip non-space
runes, then spaces. -/
def skipNonSpace (text : GoStr) (pos : Nat) : Nat :=
  if h : pos < text.length ∧ ¬ isGoSpace (text.getD pos ' ') then
    skipNonSpace text (pos + 1)
  else pos
termination_by text.length - pos
decreasing_by omega

/-- Second loop of `findWordBoundary`: skip spaces. -/
def skipSpace (text : GoStr) (pos : Nat) : Nat :=
  if h : pos < text.length ∧ isGoSpace (text.getD pos ' ') then
    skipSpace text (pos + 1)
  else pos
termination_by text.length - pos
decreasing_by omega

/-- Function `findWordBoundary` (chunker.go lines 297-315).  The Go code
inspects single bytes (`rune(text[pos])`); at rune granularity this
coincides for ASCII text. -/
def findWordBoundary (text : GoStr) (pos : Int) (forward : Bool) : Int :=
  if pos ≥ (text.length : Int) then (text.length : Int)
  else if pos ≤ 0 then 0
  else if forward then (skipSpace text (skipNonSpace text pos.toNat) : Int)
  else pos

/-- Lines 271-281 of `applyOverlap`: `prevEnd - overlap`, clamped to the
previous chunk start and to 0, then rounded forward to a word boundary. -/
def clampedOverlapStart (fullText : GoStr) (overlap : Int) (prev : Chunk) : Int :=
  let os0 := prev.endPos - overlap
  let os1 := if os0 < prev.startPos then prev.startPos else os0
  let os2 := if os1 < 0 then 0 else os1
  findWordBoundary fullText os2 true

/-- Body of `applyOverlap` for one later chunk (chunker.go lines 270-292),
computed from the ORIGINAL neighbouring chunks.  The slice
`fullText[overlapStart:prevEnd]` panics when the word-boundary scan runs
past `prevEnd`; the panic is `none`. -/
def overlapOne (fullText : GoStr) (overlap : Int) (prev cur : Chunk) :
    Option Chunk :=
  match sliceChecked fullText (clampedOverlapStart fullText overlap prev) prev.endPos with
  | none => none
  | some rawOverlap =>
    match sliceChecked fullText cur.startPos cur.endPos with
    | none => none
    | some rawMain =>
      some ⟨trimSpace (trimSpace rawOverlap ++ ' ' :: trimSpace rawMain),
            clampedOverlapStart fullText overlap prev, cur.endPos⟩

/-- The loop of `applyOverlap` over the consecutive pairs of original
chunks, stopping at the first panic. -/
def overlapMap (fullText : GoStr) (overlap : Int) :
    List (Chunk × Chunk) → Option (List Chunk)
  | [] => some []
  | p :: rest =>
    match overlapOne fullText overlap p.1 p.2 with
    | none => none
    | some c =>
      match overlapMap fullText overlap rest with
      | none => none
      | some cs => some (c :: cs)

/-- Function `applyOverlap` (chunker.go lines 262-295): the first chunk is
kept, each later chunk is extended backwards into its predecessor. -/
def applyOverlap (fullText : GoStr) (chunks : List Chunk) (overlap : Int) :
    Option (List Chunk) :=
  match chunks with
  | [] => some []
  | c0 :: rest =>
    match overlapMap fullText overlap (chunks.zip rest) with
    | none => none
    | some tail => some (c0 :: tail)

/-- Function `mergeAndSplit` (chunker.go lines 106-160). -/
def mergeAndSplit (fullText : GoStr) (paragraphs : List Segment)
    (opts : ChunkOptions) : Option (List Chunk) :=
  let chunks := mergeLoop opts paragraphs [] (-1)
  if opts.overlap > 0 ∧ chunks.length > 1 then
    applyOverlap fullText chunks opts.overlap
  else some chunks

/-- Function `Split` (chunker.go lines 39-63): trim, normalise options,
return the whole trimmed text as one chunk when it fits, otherwise split
into paragraphs and merge.  `none` models a runtime panic inside
`applyOverlap` (never taken when the effective overlap is zero). -/
def Split (text : GoStr) (opts : ChunkOptions) : Option (List Chunk) :=
  let text := trimSpace text
  if text = [] then some []
  else
    let cs := if opts.chunkSize ≤ 0 then defaultChunkSize else opts.chunkSize
    let ov0 := if opts.overlap < 0 then 0 else opts.overlap
    let ov := if ov0 ≥ cs then cs / 4 else ov0
    if (text.length : Int) ≤ cs then some [⟨text, 0, (text.length : Int)⟩]
    else mergeAndSplit text (splitParagraphs text) ⟨cs, ov⟩

/-! ## Chunker proof scaffolding

Chained well-formedness predicates used to carry the position invariants
through the folds of the chunker. -/

/-- Segments in ascending order from `lb`, each content no longer than its
span, spans within a text of length `n`, consecutive segments separated by
at least `gap` (2 for paragraphs split at `\n\n`, 1 for sentences joined by
a single space). -/
inductive SegChain (n gap : Nat) : Nat → List Segment → Prop where
  | nil (lb : Nat) : SegChain n gap lb []
  | cons (lb : Nat) (s : Segment) (rest : List Segment) :
      lb ≤ s.startPos →
      s.startPos ≤ s.endPos →
      s.content.length ≤ s.endPos - s.startPos →
      s.endPos ≤ n →
      SegChain n gap (s.endPos + gap) rest →
      SegChain n gap lb (s :: rest)

/-- Chunks in ascending, non-overlapping order from `lb`, with non-empty
spans bounded by `hi`. -/
inductive ChunkChain (hi : Int) : Int → List Chunk → Prop where
  | nil (lb : Int) : ChunkChain hi lb []
  | cons (lb : Int) (c : Chunk) (rest : List Chunk) :
      lb ≤ c.startPos →
      c.startPos < c.endPos →
      c.endPos ≤ hi →
      ChunkChain hi c.endPos rest →
      ChunkChain hi lb (c :: rest)

/-- Invariant of the `sentLoop` fold: the pending builder, when non-empty,
fits before the remaining sentences (which start at `lbs` or later) and
within the paragraph; `blb` is the lower bound for the next chunk start. -/
def SentInv (n lbs basePos : Nat) (current : GoStr) (currentStart : Nat)
    (blb : Int) : Prop :=
  0 ≤ blb ∧
  (if current = [] then blb ≤ (basePos + lbs : Int)
   else blb ≤ (basePos + currentStart : Int) ∧
        currentStart + current.length ≤ n ∧
        currentStart + current.length + 1 ≤ lbs)

/-- Invariant of the `mergeLoop` fold.  When the builder is empty the Go
sentinel `currentStart` is either `-1` or a stale non-negative start left
by an empty paragraph; when non-empty, the builder fits before the
remaining paragraphs (which start at `lbs` or later) and within the text. -/
def MergeInv (n lbs : Nat) (current : GoStr) (currentStart blb : Int) : Prop :=
  0 ≤ blb ∧
  (if current = [] then
     (currentStart = -1 ∧ blb ≤ (lbs : Int)) ∨
     (0 ≤ currentStart ∧ currentStart + 2 ≤ (lbs : Int) ∧ blb ≤ currentStart)
   else
     0 ≤ currentStart ∧ blb ≤ currentStart ∧
     currentStart + (current.length : Int) ≤ (n : Int) ∧
     currentStart + (current.length : Int) + 2 ≤ (lbs : Int))

/-! ## Catalog (internal/storage/sqlite.go)

The relational state is modelled by row lists; the connection string sets
`_foreign_keys=1` and every child table carries `ON DELETE CASCADE`, so
deleting a document cascades to its chunks, tags and collection
memberships. -/

/-- Row of the `chunks` table. -/
structure ChunkRow where
  id : GoStr
  documentId : GoStr
  content : GoStr
  startPos : Int
  endPos : Int
deriving DecidableEq

/-- State of the Catalog: `documents`, `chunks`, `document_tags`
`(documentId, tag, manual)` and `collection_documents`
`(collectionId, documentId)` rows.  Collections themselves are not touched
by any claim. -/
structure Catalog where
  documents : List Document
  chunks : List ChunkRow
  tags : List (GoStr × GoStr × Bool)
  memberships : List (GoStr × GoStr)
deriving DecidableEq

/-- Method `DB.GetDocumentByPath` (sqlite.go lines 221-229): the first row
with the path, `ErrNotFound` when absent. -/
def getDocumentByPath (c : Catalog) (path : GoStr) : Except Err Document :=
  match c.documents.find? (fun d => decide (d.path = path)) with
  | some d => .ok d
  | none => .error .notFound

/-- Method `DB.UpsertDocument` (sqlite.go lines 177-209): INSERT with
`ON CONFLICT(id) DO UPDATE` — replace the row with the same id, or append. -/
def upsertDocument (c : Catalog) (doc : Document) : Catalog :=
  if c.documents.any (fun d => decide (d.id = doc.id)) then
    { c with documents := c.documents.map (fun d => if d.id = doc.id then doc else d) }
  else
    { c with documents := c.documents ++ [doc] }

/-- Method `DB.DeleteDocument` (sqlite.go lines 231-246): DELETE by id,
`ErrNotFound` when no row was affected; the foreign-key cascades remove the
document's chunks, tags and memberships. -/
def deleteDocument (c : Catalog) (id : GoStr) : Except Err Catalog :=
  if c.documents.any (fun d => decide (d.id = id)) then
    .ok { documents := c.documents.filter (fun d => decide (d.id ≠ id)),
          chunks := c.chunks.filter (fun ch => decide (ch.documentId ≠ id)),
          tags := c.tags.filter (fun t => decide (t.1 ≠ id)),
          memberships := c.memberships.filter (fun m => decide (m.2 ≠ id)) }
  else .error .notFound

/-- Method `DB.InsertChunk` (sqlite.go lines 357-365): plain INSERT with
`id` as primary key; a conflicting insert fails without changing the
table. -/
def insertChunk (c : Catalog) (ch : ChunkRow) : Except Err Catalog :=
  if c.chunks.any (fun r => decide (r.id = ch.id)) then
    .error (.io (gs "UNIQUE constraint failed"))
  else .ok { c with chunks := c.chunks ++ [ch] }

/-- Method `DB.DeleteChunksByDocument` (sqlite.go lines 392-399). -/
def deleteChunksByDocument (c : Catalog) (id : GoStr) : Catalog :=
  { c with chunks := c.chunks.filter (fun ch => decide (ch.documentId ≠ id)) }

/-! ## Indexer (internal/index, part_019)

The full-text index (an external Bleve library) is modelled as the list of
indexed document ids: `Index(doc)` upserts by id, `Delete(id)` removes.
The indexer state bundles the three stores it mutates. -/

/-- Bleve `Index(ctx, doc)`: upsert of the document id. -/
def ftiIndex (fti : List GoStr) (id : GoStr) : List GoStr :=
  if fti.any (fun x => decide (x = id)) then fti else fti ++ [id]

/-- Bleve `Delete(ctx, id)`. -/
def ftiDelete (fti : List GoStr) (id : GoStr) : List GoStr :=
  fti.filter (fun x => decide (x ≠ id))

/-- Combined state mutated by the Indexer: Catalog, FTI, vector store. -/
structure IndexState where
  db : Catalog
  fti : List GoStr
  vectors : VectorStore
deriving DecidableEq

/-- Go `fmt.Sprintf "%s:%d" docId i` for chunk keys (part_019 line 290). -/
def chunkKey (docId : GoStr) (i : Nat) : GoStr :=
  docId ++ ':' :: Nat.toDigits 10 i

/-- How a run of `embedDocument` ended. -/
inductive EmbedOutcome where
  | noChunks
  | embedFailed
  | completed
deriving DecidableEq

/-- Call of `InsertChunk` at part_019 line 312, whose error result is
discarded by the indexer. -/
def insertChunkIgnored (c : Catalog) (ch : ChunkRow) : Catalog :=
  match insertChunk c ch with
  | .ok c2 => c2
  | .error _ => c

/-- Method `Indexer.embedDocument` (part_019 lines 275-316): delete the
document's chunk rows (nothing is deleted from the vector store, the
comment at line 276 notwithstanding), chunk the content with the default
options, embed the chunk texts in batch (via the oracle `embedBatch`;
failure aborts after the chunk deletion), insert the new chunk rows and
add the keyed vectors.  `none` models a chunker panic. -/
def embedDocument (embedBatch : List GoStr → Except Err (List (List Nat)))
    (st : IndexState) (doc : Document) : Option (IndexState × EmbedOutcome) :=
  let db1 := deleteChunksByDocument st.db doc.id
  match Split doc.content defaultOptions with
  | none => none
  | some chunks =>
    if chunks = [] then some ({ st with db := db1 }, .noChunks)
    else
      let texts := chunks.map Chunk.content
      let keys := (List.range chunks.length).map (chunkKey doc.id)
      match embedBatch texts with
      | .error _ => some ({ st with db := db1 }, .embedFailed)
      | .ok embeds =>
        let rows := (chunks.zip (List.range chunks.length)).map
          (fun p => ChunkRow.mk (chunkKey doc.id p.2) doc.id p.1.content
            p.1.startPos p.1.endPos)
        let db2 := rows.foldl insertChunkIgnored db1
        some ({ st with db := db2,
                        vectors := st.vectors.addBatch keys embeds }, .completed)

/-- Method `Indexer.RemoveFile` (part_019 lines 254-272): resolve the
document by path (propagating the lookup error), delete it from the search
index, then delete it from the database (cascading chunks, tags and
memberships).  The vector store is not touched. -/
def removeFile (st : IndexState) (path : GoStr) : Except Err IndexState :=
  match getDocumentByPath st.db path with
  | .error e => .error e
  | .ok doc =>
    let fti2 := ftiDelete st.fti doc.id
    match deleteDocument st.db doc.id with
    | .error e => .error e
    | .ok db2 => .ok { st with db := db2, fti := fti2 }

/-- Per-item outcome counted by the worker. -/
inductive WorkOutcome where
  | indexed
  | errored
deriving DecidableEq

/-- Record `sources.FileInfo` (scanner.go): path, unix mtime, size. -/
structure FileInfo where
  path : GoStr
  modifiedAt : Int
  size : Int
deriving DecidableEq

/-- Oracles for one worker iteration: the source parser, the embedder, and
the outcomes of the two storage writes (sqlite / bleve I/O). -/
structure WorkerEnv where
  parse : FileInfo → Except Err Document
  embedBatch : List GoStr → Except Err (List (List Nat))
  upsertErr : Option Err
  ftiErr : Option Err

/-- Worker body of `Indexer.indexSource` for one job (part_019 lines
149-193): the incremental-skip check (lines 149-158), then parse, store,
index and — when both the vector store and the embedder are configured
(`semantic = true`) — `embedDocument`.  Returns the new state, the counted
outcome, and whether `Parse` was invoked; `none` models a chunker panic. -/
def processFile (env : WorkerEnv) (semantic : Bool) (st : IndexState)
    (file : FileInfo) : Option (IndexState × WorkOutcome × Bool) :=
  let cont : Option (IndexState × WorkOutcome × Bool) :=
    match env.parse file with
    | .error _ => some (st, .errored, true)
    | .ok doc =>
      match env.upsertErr with
      | some _ => some (st, .errored, true)
      | none =>
        let st1 := { st with db := upsertDocument st.db doc }
        match env.ftiErr with
        | some _ => some (st1, .errored, true)
        | none =>
          let st2 := { st1 with fti := ftiIndex st1.fti doc.id }
          if semantic then
            match embedDocument env.embedBatch st2 doc with
            | none => none
            | some (st3, _) => some (st3, .indexed, true)
          else some (st2, .indexed, true)
  match getDocumentByPath st.db file.path with
  | .ok existing =>
    if existing.modifiedAtUnix ≥ file.modifiedAt then some (st, .indexed, false)
    else cont
  | .error _ => cont

/-- Concrete fixture document: id `d`, path `p`, content `"hello"`
(which chunks into exactly one chunk under the default options). -/
def fixtureDoc : Document :=
  ⟨gs "d", gs "markdown", gs "p", gs "t", gs "hello", [], [], gs "h1", 0, 5⟩

/-- Re-parsed version of the fixture document with a later mtime. -/
def fixtureDoc2 : Document :=
  ⟨gs "d", gs "markdown", gs "p", gs "t", gs "hello world", [], [], gs "h2", 9, 9⟩

/-- Concrete fixture state: the fixture document, two chunk rows `d:0` and
`d:1` from an earlier indexing of the same document, the matching two
vector entries, one FTI entry, and one collection membership. -/
def fixtureState : IndexState :=
  ⟨⟨[fixtureDoc],
    [⟨gs "d:0", gs "d", gs "old0", 0, 3⟩, ⟨gs "d:1", gs "d", gs "old1", 3, 6⟩],
    [],
    [(gs "c1", gs "d")]⟩,
   [gs "d"],
   ⟨[(gs "d:0", [0]), (gs "d:1", [0])]⟩⟩

/-! ## General lemmas -/

/-- Finding the first match equals taking the head of the filtered list. -/
theorem find?_eq_head?_filter {α : Type} (p : α → Bool) (l : List α) :
    l.find? p = (l.filter p).head? := by
  induction l with
  | nil => rfl
  | cons a t ih =>
    by_cases h : p a
    · rw [List.find?_cons_of_pos _ h, List.filter_cons_of_pos h]
      rfl
    · rw [List.find?_cons_of_neg _ h, List.filter_cons_of_neg h, ih]

/-- When at most one element matches, `find?` is invariant under permutation. -/
theorem find?_eq_of_perm_of_unique {α : Type} (p : α → Bool) {l1 l2 : List α}
    (hp : l1.Perm l2) (hu : (l2.filter p).length ≤ 1) :
    l1.find? p = l2.find? p := by
  rw [find?_eq_head?_filter, find?_eq_head?_filter]
  have hperm := hp.filter p
  match h2 : l2.filter p, hu with
  | [], _ =>
    rw [h2] at hperm
    rw [hperm.eq_nil]
  | [x], _ =>
    rw [h2] at hperm
    rw [List.perm_singleton.mp hperm]
  | x :: y :: t, hu => simp at hu

/-! ## Theorems for claim C6 (query-parser determinism) -/

/-- Claim C6, counterexample.  The claim states that `parse(q)` is
deterministic for every input, including inputs containing more than one
source-filter phrase, with the first match of the fixed lookup table
winning.  `ParseQuery` iterates the `sourceKeywords` Go map, whose
iteration order is unspecified; on the query
`"notes in my emails from browser"` two valid iteration orders (both
permutations of the table) produce different results: one yields
source filter `email`, the other `browser`. -/
theorem parseQuery_order_dependent :
    ([(gs "from browser", gs "browser"),
      (gs "in my notes", gs "markdown"),
      (gs "in my emails", gs "email"),
      (gs "in emails", gs "email"),
      (gs "in browser", gs "browser"),
      (gs "from clipboard", gs "clipboard"),
      (gs "in pdfs", gs "pdf"),
      (gs "in pdf", gs "pdf")].Perm sourceKeywords) ∧
    parseQueryWith sourceKeywords (gs "notes in my emails from browser") ≠
      parseQueryWith
        [(gs "from browser", gs "browser"),
         (gs "in my notes", gs "markdown"),
         (gs "in my emails", gs "email"),
         (gs "in emails", gs "email"),
         (gs "in browser", gs "browser"),
         (gs "from clipboard", gs "clipboard"),
         (gs "in pdfs", gs "pdf"),
         (gs "in pdf", gs "pdf")]
        (gs "notes in my emails from browser") := by
  constructor
  · decide
  · decide

/-- Claim C6 (amended): the parser is deterministic on every input whose
lowercased, trimmed form contains at most one phrase of the source-filter
lookup table; for such inputs the result does not depend on the iteration
order of the `sourceKeywords` map (the order being any permutation of the
table).  For inputs containing two or more table phrases the result depends
on the unspecified map order, so the unconditional claim fails
(see the counterexample). -/
theorem parseQuery_deterministic_unique_match
    (o1 o2 : List (GoStr × GoStr)) (q : GoStr)
    (h1 : o1.Perm sourceKeywords) (h2 : o2.Perm sourceKeywords)
    (hu : ((sourceKeywords.filter
        (fun kv => goContains (toLowerStr (trimSpace q)) kv.1)).length ≤ 1)) :
    parseQueryWith o1 q = parseQueryWith o2 q := by
  have e1 := find?_eq_of_perm_of_unique
    (fun kv => goContains (toLowerStr (trimSpace q)) kv.1) h1 hu
  have e2 := find?_eq_of_perm_of_unique
    (fun kv => goContains (toLowerStr (trimSpace q)) kv.1) h2 hu
  simp only [parseQueryWith]
  rw [e1, e2]

/-- Witness for the amended claim C6 at a concrete query with no
source-filter phrase and two genuinely different orders. -/
theorem parseQuery_deterministic_unique_match_witness :
    (sourceKeywords.reverse.Perm sourceKeywords ∧
     sourceKeywords.Perm sourceKeywords ∧
     ((sourceKeywords.filter
        (fun kv => goContains (toLowerStr (trimSpace (gs "golang concurrency"))) kv.1)).length ≤ 1)) ∧
    parseQueryWith sourceKeywords.reverse (gs "golang concurrency") =
      parseQueryWith sourceKeywords (gs "golang concurrency") :=
  ⟨⟨by decide, by decide, by decide⟩,
   parseQuery_deterministic_unique_match _ _ _ (by decide) (by decide) (by decide)⟩

/-! ## Theorems for claim C8 (embedding codec round trip) -/

/-- Unfolding step for the codec. -/
theorem encodeEmbedding_cons (x : Nat) (t : List Nat) :
    encodeEmbedding (x :: t) = putUint32LE x ++ encodeEmbedding t := by
  simp [encodeEmbedding]

/-- Length of the encoding: four bytes per element. -/
theorem encodeEmbedding_length (emb : List Nat) :
    (encodeEmbedding emb).length = 4 * emb.length := by
  induction emb with
  | nil => rfl
  | cons x t ih =>
    rw [encodeEmbedding_cons]
    simp only [List.length_append, ih, List.length_cons, putUint32LE,
      List.length_nil]
    omega

/-- Reading back four little-endian bytes of a 32-bit pattern. -/
theorem uint32LE_bytes (x : Nat) (h : x < 2 ^ 32) :
    uint32LE (x % 256) (x / 2 ^ 8 % 256) (x / 2 ^ 16 % 256) (x / 2 ^ 24 % 256) = x := by
  simp only [uint32LE]
  omega

/-- Claim C8: decoding the encoding of a float32 vector (elements carried as
their 32-bit patterns, which `math.Float32bits` / `math.Float32frombits`
identify with float32 values) returns the vector unchanged element for
element, and the encoding is exactly `4 * len v` bytes, each element packed
as a little-endian 32-bit group. -/
theorem encodeEmbedding_roundtrip (emb : List Nat) (h : ∀ x ∈ emb, x < 2 ^ 32) :
    decodeEmbedding (encodeEmbedding emb) = emb ∧
    (encodeEmbedding emb).length = 4 * emb.length := by
  constructor
  · induction emb with
    | nil => rfl
    | cons x t ih =>
      have hx : x < 2 ^ 32 := h x (by simp)
      have ht := ih (fun y hy => h y (by simp [hy]))
      rw [encodeEmbedding_cons]
      show decodeEmbedding (putUint32LE x ++ encodeEmbedding t) = x :: t
      have : decodeEmbedding (putUint32LE x ++ encodeEmbedding t) =
          uint32LE (x % 256) (x / 2 ^ 8 % 256) (x / 2 ^ 16 % 256) (x / 2 ^ 24 % 256) ::
            decodeEmbedding (encodeEmbedding t) := rfl
      rw [this, uint32LE_bytes x hx, ht]
  · exact encodeEmbedding_length emb

/-- Witness for claim C8 on a concrete three-element vector containing the
extreme 32-bit pattern. -/
theorem encodeEmbedding_roundtrip_witness :
    (∀ x ∈ [0, 1065353216, 4294967295], x < 2 ^ 32) ∧
    (decodeEmbedding (encodeEmbedding [0, 1065353216, 4294967295]) =
        [0, 1065353216, 4294967295] ∧
     (encodeEmbedding [0, 1065353216, 4294967295]).length =
        4 * [0, 1065353216, 4294967295].length) :=
  ⟨by decide, encodeEmbedding_roundtrip _ (by decide)⟩

/-! ## Theorems for claim C9 (DeleteByPrefix performs no mutation) -/

/-- Claim C9: for every store state and every prefix, `DeleteByPrefix`
leaves the store unchanged — every stored key and vector is retained and
`Len` is the same — because its body performs no graph operation. -/
theorem deleteByPfx_is_noop (v : VectorStore) (pre : GoStr) :
    deleteByPfx v pre = v ∧
    (deleteByPfx v pre).entries = v.entries ∧
    (deleteByPfx v pre).len = v.len :=
  ⟨rfl, rfl, rfl⟩

/-! ## Theorems for claim C10 (AddBatch length-mismatch behaviour) -/

/-- Claim C10: whenever `len keys ≠ len vectors`, `AddBatch` returns
immediately — its Go signature has no error result, and the store is left
completely unchanged (hence so is `Len`). -/
theorem addBatch_length_mismatch_noop (v : VectorStore) (keys : List GoStr)
    (vectors : List (List Nat)) (h : keys.length ≠ vectors.length) :
    v.addBatch keys vectors = v ∧ (v.addBatch keys vectors).len = v.len := by
  have hv : v.addBatch keys vectors = v := by
    simp [VectorStore.addBatch, h]
  exact ⟨hv, by rw [hv]⟩

/-! ## Lemmas about the fused-entries map -/

/-- Lookup after an update-or-insert. -/
theorem lookupEntry_update (l : List (GoStr × FusedEntry)) (k : GoStr)
    (f : FusedEntry → FusedEntry) (init : FusedEntry) (d : GoStr) :
    lookupEntry (updateEntry l k f init) d =
      if k = d then
        match lookupEntry l k with
        | some e => some (f e)
        | none => some init
      else lookupEntry l d := by
  induction l with
  | nil =>
    by_cases h : k = d <;> simp [updateEntry, lookupEntry, h]
  | cons p rest ih =>
    obtain ⟨k0, e0⟩ := p
    by_cases h0 : k0 = k
    · subst h0
      by_cases hd : k0 = d <;> simp [updateEntry, lookupEntry, hd]
    · by_cases hd : k0 = d
      · subst hd
        have hk : ¬ k = k0 := fun h => h0 h.symm
        simp [updateEntry, lookupEntry, h0, hk]
      · simp [updateEntry, lookupEntry, h0, hd, ih]

/-- Updating with a score increment shifts the looked-up score by the
increment at the updated key and nowhere else. -/
theorem lookupRRF_update (l : List (GoStr × FusedEntry)) (k : GoStr)
    (f : FusedEntry → FusedEntry) (init : FusedEntry) (contrib : ℚ) (d : GoStr)
    (hf : ∀ e, (f e).rrfScore = e.rrfScore + contrib)
    (hinit : init.rrfScore = contrib) :
    lookupRRF (updateEntry l k f init) d =
      lookupRRF l d + (if k = d then contrib else 0) := by
  unfold lookupRRF
  rw [lookupEntry_update]
  by_cases h : k = d
  · subst h
    cases hl : lookupEntry l k with
    | some e => simp [hf]
    | none => simp [hinit]
  · simp [h]

/-- The BM25 pass adds exactly the weighted reciprocal-rank sum of the BM25
list to every key of the accumulator map. -/
theorem lookupRRF_bmPass (w : ℚ) (d : GoStr) (bm : List BMResult) :
    ∀ (rank : Nat) (acc : List (GoStr × FusedEntry)),
      lookupRRF (bmPass w rank bm acc) d = lookupRRF acc d + bmSum w d rank bm := by
  induction bm with
  | nil => intro rank acc; simp [bmPass, bmSum]
  | cons r rest ih =>
    intro rank acc
    show lookupRRF (bmPass w (rank + 1) rest _) d = _
    rw [ih (rank + 1),
      lookupRRF_update _ _ _ _ ((1 - w) * (1 / (60 + (rank : ℚ) + 1))) d
        (fun e => rfl) rfl]
    show _ = lookupRRF acc d +
      ((if r.id = d then (1 - w) * (1 / (60 + (rank : ℚ) + 1)) else 0) +
        bmSum w d (rank + 1) rest)
    by_cases h : r.id = d <;> simp [h] <;> ring

/-- The vector pass adds exactly the weighted reciprocal-rank sum of the
vector list to every key of the accumulator map. -/
theorem lookupRRF_vecPass (w : ℚ) (d : GoStr) (vec : List VecResult) :
    ∀ (rank : Nat) (acc : List (GoStr × FusedEntry)),
      lookupRRF (vecPass w rank vec acc) d = lookupRRF acc d + vecSum w d rank vec := by
  induction vec with
  | nil => intro rank acc; simp [vecPass, vecSum]
  | cons r rest ih =>
    intro rank acc
    show lookupRRF (vecPass w (rank + 1) rest _) d = _
    rw [ih (rank + 1),
      lookupRRF_update _ _ _ _ (w * (1 / (60 + (rank : ℚ) + 1))) d
        (fun e => rfl) rfl]
    show _ = lookupRRF acc d +
      ((if extractDocID r.key = d then w * (1 / (60 + (rank : ℚ) + 1)) else 0) +
        vecSum w d (rank + 1) rest)
    by_cases h : extractDocID r.key = d <;> simp [h] <;> ring

/-- Absent keys are exactly those `lookupEntry` misses. -/
theorem lookupEntry_eq_none_iff (l : List (GoStr × FusedEntry)) (k : GoStr) :
    lookupEntry l k = none ↔ k ∉ l.map Prod.fst := by
  induction l with
  | nil => simp [lookupEntry]
  | cons p rest ih =>
    obtain ⟨k0, e0⟩ := p
    by_cases h : k0 = k
    · subst h
      simp only [lookupEntry, if_pos rfl, List.map_cons]
      constructor
      · intro hc
        exact absurd hc (Option.some_ne_none _)
      · intro hc
        exact absurd (List.mem_cons_self _ _) hc
    · simp only [lookupEntry, if_neg h, List.map_cons, List.mem_cons]
      rw [ih]
      constructor
      · intro hni
        rintro (rfl | hmem)
        · exact h rfl
        · exact hni hmem
      · intro hni hmem
        exact hni (Or.inr hmem)

/-- Keys after an update-or-insert: unchanged when the key was present,
extended by the key otherwise. -/
theorem keys_updateEntry (l : List (GoStr × FusedEntry)) (k : GoStr)
    (f : FusedEntry → FusedEntry) (init : FusedEntry) :
    (updateEntry l k f init).map Prod.fst =
      if (lookupEntry l k).isSome then l.map Prod.fst
      else l.map Prod.fst ++ [k] := by
  induction l with
  | nil => simp [updateEntry, lookupEntry]
  | cons p rest ih =>
    obtain ⟨k0, e0⟩ := p
    by_cases h : k0 = k
    · subst h; simp [updateEntry, lookupEntry]
    · simp only [updateEntry, lookupEntry, if_neg h, List.map_cons, ih]
      by_cases hs : (lookupEntry rest k).isSome <;> simp [hs]

/-- Update-or-insert keeps the keys of the map pairwise distinct. -/
theorem nodup_updateEntry (l : List (GoStr × FusedEntry)) (k : GoStr)
    (f : FusedEntry → FusedEntry) (init : FusedEntry)
    (h : (l.map Prod.fst).Nodup) :
    ((updateEntry l k f init).map Prod.fst).Nodup := by
  rw [keys_updateEntry]
  by_cases hs : (lookupEntry l k).isSome
  · simpa [hs] using h
  · have hk : k ∉ l.map Prod.fst :=
      (lookupEntry_eq_none_iff l k).mp (Option.not_isSome_iff_eq_none.mp hs)
    simp [hs, List.nodup_append, h, hk]

/-- Update-or-insert preserves the key-ownership invariant provided `f`
fixes `docID` and the fresh entry owns its key. -/
theorem keysOwn_updateEntry (l : List (GoStr × FusedEntry)) (k : GoStr)
    (f : FusedEntry → FusedEntry) (init : FusedEntry)
    (hf : ∀ e, (f e).docID = e.docID) (hinit : init.docID = k)
    (h : KeysOwn l) : KeysOwn (updateEntry l k f init) := by
  induction l with
  | nil =>
    intro p hp
    simp [updateEntry] at hp
    subst hp
    exact hinit
  | cons q rest ih =>
    obtain ⟨k0, e0⟩ := q
    by_cases h0 : k0 = k
    · subst h0
      intro p hp
      simp only [updateEntry, if_pos rfl] at hp
      rcases List.mem_cons.mp hp with rfl | hp
      · simpa [hf] using h (k0, e0) (List.mem_cons_self _ _)
      · exact h p (List.mem_cons_of_mem _ hp)
    · intro p hp
      simp only [updateEntry, if_neg h0] at hp
      rcases List.mem_cons.mp hp with rfl | hp
      · exact h (k0, e0) (List.mem_cons_self _ _)
      · exact ih (fun q hq => h q (List.mem_cons_of_mem _ hq)) p hp

/-- The BM25 pass preserves distinct keys and key ownership. -/
theorem bmPass_invariants (w : ℚ) (bm : List BMResult) :
    ∀ (rank : Nat) (acc : List (GoStr × FusedEntry)),
      (acc.map Prod.fst).Nodup → KeysOwn acc →
      ((bmPass w rank bm acc).map Prod.fst).Nodup ∧ KeysOwn (bmPass w rank bm acc) := by
  induction bm with
  | nil => intro rank acc h1 h2; exact ⟨h1, h2⟩
  | cons r rest ih =>
    intro rank acc h1 h2
    exact ih (rank + 1) _ (nodup_updateEntry _ _ _ _ h1)
      (keysOwn_updateEntry _ _ _ _ (fun e => rfl) rfl h2)

/-- The vector pass preserves distinct keys and key ownership. -/
theorem vecPass_invariants (w : ℚ) (vec : List VecResult) :
    ∀ (rank : Nat) (acc : List (GoStr × FusedEntry)),
      (acc.map Prod.fst).Nodup → KeysOwn acc →
      ((vecPass w rank vec acc).map Prod.fst).Nodup ∧ KeysOwn (vecPass w rank vec acc) := by
  induction vec with
  | nil => intro rank acc h1 h2; exact ⟨h1, h2⟩
  | cons r rest ih =>
    intro rank acc h1 h2
    exact ih (rank + 1) _ (nodup_updateEntry _ _ _ _ h1)
      (keysOwn_updateEntry _ _ _ _ (fun e => rfl) rfl h2)

/-- With pairwise-distinct keys, membership determines the lookup. -/
theorem lookupEntry_of_mem_nodup {l : List (GoStr × FusedEntry)}
    (h : (l.map Prod.fst).Nodup) {k : GoStr} {e : FusedEntry}
    (hm : (k, e) ∈ l) : lookupEntry l k = some e := by
  induction l with
  | nil => cases hm
  | cons p rest ih =>
    obtain ⟨k0, e0⟩ := p
    rcases List.mem_cons.mp hm with heq | hm2
    · rw [Prod.mk.injEq] at heq
      obtain ⟨rfl, rfl⟩ := heq
      simp [lookupEntry]
    · have hk : k0 ≠ k := by
        intro hkk
        subst hkk
        have : k0 ∈ rest.map Prod.fst := List.mem_map.mpr ⟨(k0, e), hm2, rfl⟩
        exact (List.nodup_cons.mp h).1 this
      simp only [lookupEntry, if_neg hk]
      exact ih (List.nodup_cons.mp h).2 hm2

/-- Every entry of the fused map carries the reciprocal-rank score of the
two specification sums at its own key. -/
theorem fusedMap_score (w : ℚ) (bm : List BMResult) (vec : List VecResult) :
    ∀ e ∈ (vecPass w 0 vec (bmPass w 0 bm [])).map Prod.snd,
      e.rrfScore = rrfSpecScore w bm vec e.docID := by
  intro e he
  obtain ⟨p, hmem, hsnd⟩ := List.mem_map.mp he
  obtain ⟨k, e0⟩ := p
  have hse : e0 = e := hsnd
  subst hse
  have hbm := bmPass_invariants w bm 0 [] List.nodup_nil
    (fun p hp => absurd hp (List.not_mem_nil p))
  have hvec := vecPass_invariants w vec 0 _ hbm.1 hbm.2
  have hOwn : e0.docID = k := hvec.2 (k, e0) hmem
  have hLook : lookupEntry (vecPass w 0 vec (bmPass w 0 bm [])) k = some e0 :=
    lookupEntry_of_mem_nodup hvec.1 hmem
  have hVal : lookupRRF (vecPass w 0 vec (bmPass w 0 bm [])) k = e0.rrfScore := by
    unfold lookupRRF
    rw [hLook]
  have hSum : lookupRRF (vecPass w 0 vec (bmPass w 0 bm [])) k =
      bmSum w k 0 bm + vecSum w k 0 vec := by
    rw [lookupRRF_vecPass, lookupRRF_bmPass]
    show (0 : ℚ) + bmSum w k 0 bm + vecSum w k 0 vec = _
    ring
  show e0.rrfScore = _
  rw [hOwn, ← hVal, hSum]
  rfl

/-- Concrete value of `extractDocID` on the S3 fixture keys (stated over
the literal rune lists so that it can serve as a rewrite rule). -/
theorem extractDocID_s3 :
    extractDocID (['d', 'o', 'c', '1', ':', '0'] : GoStr) = ['d', 'o', 'c', '1'] ∧
    extractDocID (['d', 'o', 'c', '3', ':', '0'] : GoStr) = ['d', 'o', 'c', '3'] ∧
    extractDocID (['d', 'o', 'c', '4', ':', '0'] : GoStr) = ['d', 'o', 'c', '4'] :=
  ⟨rfl, rfl, rfl⟩

/-! ## Theorems for claim C3 (weighted RRF fusion) -/

/-- Claim C3, counterexample.  On the S3 fixture — BM25 list
`[doc1(1.5), doc2(1.0), doc3(0.5)]`, vector list
`[doc3:0(0.95), doc1:0(0.8), doc4:0(0.7)]` — with `w = 1` the BM25
contributions vanish, so the top fused document is `doc3` (score `1/61`),
not `doc2` (score `0`) as the claim states. -/
theorem fuseResults_s3_w1_top_doc3 :
    ((fuseResults 1 s3BM s3Vec).head?.map FusedEntry.docID = some (gs "doc3")) ∧
    ((fuseResults 1 s3BM s3Vec).head?.map FusedEntry.docID ≠ some (gs "doc2")) := by
  have h : (fuseResults 1 s3BM s3Vec).map FusedEntry.docID =
      [gs "doc3", gs "doc1", gs "doc4", gs "doc2"] := by
    norm_num [fuseResults, bmPass, vecPass, updateEntry, extractDocID_s3.1,
      extractDocID_s3.2.1, extractDocID_s3.2.2,
      s3BM, s3Vec, gs, List.insertionSort, List.orderedInsert, rrfGE]
  have hh : (fuseResults 1 s3BM s3Vec).head?.map FusedEntry.docID =
      some (gs "doc3") := by
    rw [← List.head?_map, h]
    rfl
  refine ⟨hh, ?_⟩
  rw [hh]
  intro hcon
  simp [gs] at hcon

/-- Claim C3 (amended): for every BM25 list `B`, vector list `V` and weight
`w`, the fused score of each returned entry equals the sum over its ranks
`r` in `B` of `(1-w) * 1/(60+r+1)` plus the sum over the ranks `r` in `V`
whose key maps to it (prefix before the last colon) of `w * 1/(60+r+1)`,
and the fused list is sorted by non-increasing fused score.  On the S3
fixture with `w = 1/2` the top two ids are `doc1, doc3` with all fused
scores positive; with `w = 0` the top is `doc1`; with `w = 1` the top is
`doc3` (the claim stated `doc2`, which is what the repository's own unit
test expects on a different fixture, not on S3). -/
theorem fuseResults_rrf_correct :
    (∀ (w : ℚ) (bm : List BMResult) (vec : List VecResult),
        (∀ e ∈ fuseResults w bm vec, e.rrfScore = rrfSpecScore w bm vec e.docID) ∧
        (fuseResults w bm vec).Sorted rrfGE) ∧
    ((((fuseResults (1/2) s3BM s3Vec).take 2).map FusedEntry.docID =
        [gs "doc1", gs "doc3"]) ∧
      (∀ e ∈ fuseResults (1/2) s3BM s3Vec, 0 < e.rrfScore)) ∧
    ((fuseResults 0 s3BM s3Vec).head?.map FusedEntry.docID = some (gs "doc1")) ∧
    ((fuseResults 1 s3BM s3Vec).head?.map FusedEntry.docID = some (gs "doc3")) := by
  refine ⟨fun w bm vec => ⟨?_, ?_⟩, ⟨?_, ?_⟩, ?_, ?_⟩
  · intro e he
    exact fusedMap_score w bm vec e ((List.perm_insertionSort rrfGE _).subset he)
  · exact List.sorted_insertionSort rrfGE _
  · norm_num [fuseResults, bmPass, vecPass, updateEntry, extractDocID_s3.1,
      extractDocID_s3.2.1, extractDocID_s3.2.2,
      s3BM, s3Vec, gs, List.insertionSort, List.orderedInsert, rrfGE]
  · intro e he
    have h : (fuseResults (1/2) s3BM s3Vec).map FusedEntry.rrfScore =
        [123/7564, 62/3843, 1/124, 1/126] := by
      norm_num [fuseResults, bmPass, vecPass, updateEntry, extractDocID_s3.1,
        extractDocID_s3.2.1, extractDocID_s3.2.2,
        s3BM, s3Vec, gs, List.insertionSort, List.orderedInsert, rrfGE]
    have hm : e.rrfScore ∈ ([123/7564, 62/3843, 1/124, 1/126] : List ℚ) := by
      rw [← h]
      exact List.mem_map.mpr ⟨e, he, rfl⟩
    simp only [List.mem_cons, List.not_mem_nil, or_false] at hm
    rcases hm with h1 | h1 | h1 | h1 <;> rw [h1] <;> norm_num
  · have h : (fuseResults 0 s3BM s3Vec).map FusedEntry.docID =
        [gs "doc1", gs "doc2", gs "doc3", gs "doc4"] := by
      norm_num [fuseResults, bmPass, vecPass, updateEntry, extractDocID_s3.1,
        extractDocID_s3.2.1, extractDocID_s3.2.2,
        s3BM, s3Vec, gs, List.insertionSort, List.orderedInsert, rrfGE]
    rw [← List.head?_map, h]
    rfl
  · have h : (fuseResults 1 s3BM s3Vec).map FusedEntry.docID =
        [gs "doc3", gs "doc1", gs "doc4", gs "doc2"] := by
      norm_num [fuseResults, bmPass, vecPass, updateEntry, extractDocID_s3.1,
        extractDocID_s3.2.1, extractDocID_s3.2.2,
        s3BM, s3Vec, gs, List.insertionSort, List.orderedInsert, rrfGE]
    rw [← List.head?_map, h]
    rfl

/-- Witness for the amended claim C3 on a one-element BM25 list: the single
fused entry is in the output and its score matches the specification sum. -/
theorem fuseResults_rrf_correct_witness :
    ((⟨gs "a", 1, 0, (1 - (1 : ℚ)/2) * (1/61), [], []⟩ : FusedEntry) ∈
        fuseResults (1/2) [⟨gs "a", 1, []⟩] []) ∧
    (⟨gs "a", 1, 0, (1 - (1 : ℚ)/2) * (1/61), [], []⟩ : FusedEntry).rrfScore =
      rrfSpecScore (1/2) [⟨gs "a", 1, []⟩] []
        (⟨gs "a", 1, 0, (1 - (1 : ℚ)/2) * (1/61), [], []⟩ : FusedEntry).docID := by
  have hm : (⟨gs "a", 1, 0, (1 - (1 : ℚ)/2) * (1/61), [], []⟩ : FusedEntry) ∈
      fuseResults (1/2) [⟨gs "a", 1, []⟩] [] := by
    norm_num [fuseResults, bmPass, vecPass, updateEntry, gs,
      List.insertionSort, List.orderedInsert]
  exact ⟨hm, (fuseResults_rrf_correct.1 (1/2) [⟨gs "a", 1, []⟩] []).1 _ hm⟩

/-! ## Theorems for claim C4 (hybrid search degradation paths) -/

/-- Claim C4: hybrid search takes the BM25-only path — forwarding the query
to the full-text index with the caller's limit, with `score = BM25Score` on
every returned result — whenever the vector store or the embedder is absent
or the store is empty; when the vector leg fails it returns the BM25-only
result for the original query, and when the BM25 leg fails it returns that
error (in the BM25-only path the Bleve error is propagated as well). -/
theorem hybridSearch_fallbacks (h : HybridSearcher) (env : HSEnv) (q : GoStr)
    (limit : Int) :
    ((h.vectors = none ∨ h.hasEmbedder = false ∨
        (∃ vs, h.vectors = some vs ∧ vs.len = 0)) →
      h.search env q limit = bm25Only env q limit) ∧
    (∀ vs, h.vectors = some vs → h.hasEmbedder = true → vs.len ≠ 0 →
      (∀ er, env.embed q = .error er →
        h.search env q limit = bm25Only env q limit) ∧
      (∀ emb er, env.embed q = .ok emb →
        env.bleveSearch q (limit * 2) = .error er →
        h.search env q limit = .error er)) ∧
    (∀ res, bm25Only env q limit = .ok res →
      ∀ out ∈ res, out.score = out.bm25Score) ∧
    (∀ er, env.bleveSearch q limit = .error er →
      bm25Only env q limit = .error er) := by
  refine ⟨?_, ?_, ?_, ?_⟩
  · rintro (hv | he | ⟨vs, hv, hlen⟩)
    · rw [HybridSearcher.search, hv]
    · rw [HybridSearcher.search]
      cases h.vectors with
      | none => rfl
      | some vs => simp [he]
    · rw [HybridSearcher.search, hv]
      simp [hlen]
  · intro vs hv hemb hlen
    constructor
    · intro er her
      rw [HybridSearcher.search, hv]
      simp [hemb, hlen, her]
    · intro emb er hok hbm
      rw [HybridSearcher.search, hv]
      simp [hemb, hlen, hok, hbm]
  · intro res hres out hout
    rw [bm25Only] at hres
    cases hbs : env.bleveSearch q limit with
    | error e => rw [hbs] at hres; cases hres
    | ok rs =>
      rw [hbs] at hres
      injection hres with hres
      subst hres
      obtain ⟨r, _, hr⟩ := List.mem_filterMap.mp hout
      cases hgd : env.getDocument r.id with
      | error e => rw [hgd] at hr; cases hr
      | ok doc =>
        rw [hgd] at hr
        injection hr with hr
        subst hr
        rfl
  · intro er her
    rw [bm25Only, her]

/-- Witness for claim C4, instantiating every degradation path at concrete
searchers and environments: an absent vector store; an embedder failure on
a singleton store; a BM25-leg failure on a singleton store; a successful
BM25-only result whose scores agree; and error propagation in the
BM25-only path. -/
theorem hybridSearch_fallbacks_witness :
    (HybridSearcher.search ⟨none, true, 1/2⟩
        ⟨fun _ _ => .ok [], fun _ => .ok [], fun _ _ _ => [], fun _ => .error .notFound⟩
        (gs "q") 5 =
      bm25Only
        ⟨fun _ _ => .ok [], fun _ => .ok [], fun _ _ _ => [], fun _ => .error .notFound⟩
        (gs "q") 5) ∧
    (HybridSearcher.search ⟨some ⟨[(gs "d:0", [1])]⟩, true, 1/2⟩
        ⟨fun _ _ => .ok [], fun _ => .error (.backend (gs "down")), fun _ _ _ => [],
         fun _ => .error .notFound⟩
        (gs "q") 5 =
      bm25Only
        ⟨fun _ _ => .ok [], fun _ => .error (.backend (gs "down")), fun _ _ _ => [],
         fun _ => .error .notFound⟩
        (gs "q") 5) ∧
    (HybridSearcher.search ⟨some ⟨[(gs "d:0", [1])]⟩, true, 1/2⟩
        ⟨fun _ _ => .error (.io (gs "broken")), fun _ => .ok [1], fun _ _ _ => [],
         fun _ => .error .notFound⟩
        (gs "q") 5 = .error (.io (gs "broken"))) ∧
    (∀ out ∈ ([⟨⟨gs "d", gs "markdown", gs "p", [], [], [], [], [], 0, 0⟩,
                (3 : ℚ)/2, 3/2, 0, [], []⟩] : List SearchResultRec),
       out.score = out.bm25Score) := by
  refine ⟨?_, ?_, ?_, ?_⟩
  · exact (hybridSearch_fallbacks _ _ _ _).1 (Or.inl rfl)
  · exact (((hybridSearch_fallbacks _ _ _ _).2.1 _ rfl rfl (by decide)).1
      _ rfl)
  · exact (((hybridSearch_fallbacks _ _ _ _).2.1 _ rfl rfl (by decide)).2
      _ _ rfl rfl)
  · exact (hybridSearch_fallbacks
        ⟨none, true, 1/2⟩
        ⟨fun _ _ => .ok [⟨gs "d", 3/2, []⟩], fun _ => .ok [], fun _ _ _ => [],
         fun _ => .ok ⟨gs "d", gs "markdown", gs "p", [], [], [], [], [], 0, 0⟩⟩
        (gs "q") 5).2.2.1
      [⟨⟨gs "d", gs "markdown", gs "p", [], [], [], [], [], 0, 0⟩, 3/2, 3/2, 0, [], []⟩]
      rfl

/-! ## Lemmas for the chunker -/

/-- Trimming never lengthens a string. -/
theorem trimSpace_length_le (s : GoStr) : (trimSpace s).length ≤ s.length := by
  unfold trimSpace dropRightWhile
  calc ((s.dropWhile isGoSpace).reverse.dropWhile isGoSpace).reverse.length
      = ((s.dropWhile isGoSpace).reverse.dropWhile isGoSpace).length :=
        List.length_reverse _
    _ ≤ (s.dropWhile isGoSpace).reverse.length :=
        (List.dropWhile_sublist _).length_le
    _ = (s.dropWhile isGoSpace).length := List.length_reverse _
    _ ≤ s.length := (List.dropWhile_sublist _).length_le

/-- A slice is no longer than the index distance. -/
theorem slice_length_le (s : GoStr) (a b : Nat) : (slice s a b).length ≤ b - a := by
  simp [slice, List.length_take]

/-- A prefix is no longer than the whole. -/
theorem hasPfx_length_le (s pat : GoStr) (h : hasPfx s pat = true) :
    pat.length ≤ s.length := by
  unfold hasPfx at h
  induction pat generalizing s with
  | nil => simp
  | cons a t ih =>
    cases s with
    | nil => simp [List.isPrefixOf] at h
    | cons b bs =>
      simp only [List.isPrefixOf, Bool.and_eq_true, beq_iff_eq] at h
      have := ih bs h.2
      simp only [List.length_cons]
      omega

/-- A match position found by `goIndex` leaves room for the pattern. -/
theorem goIndex_bound (s pat : GoStr) : ∀ i, goIndex s pat = some i →
    i + pat.length ≤ s.length := by
  induction s with
  | nil =>
    intro i h
    unfold goIndex at h
    by_cases hp : hasPfx [] pat
    · rw [if_pos hp] at h
      injection h with h1
      subst h1
      simpa using hasPfx_length_le _ _ hp
    · rw [if_neg hp] at h
      cases h
  | cons c rest ih =>
    intro i h
    unfold goIndex at h
    by_cases hp : hasPfx (c :: rest) pat
    · rw [if_pos hp] at h
      injection h with h1
      subst h1
      simpa using hasPfx_length_le _ _ hp
    · rw [if_neg hp] at h
      have h2 : Option.map (fun x => x + 1) (goIndex rest pat) = some i := h
      cases hg : goIndex rest pat with
      | none => rw [hg] at h2; cases h2
      | some j =>
        rw [hg] at h2
        have h3 : some (j + 1) = some i := h2
        injection h3 with h1
        subst h1
        have := ih j hg
        simp only [List.length_cons]
        omega

/-- The whitespace skip never moves backwards. -/
theorem le_skipWs (runes : GoStr) (i : Nat) : i ≤ skipWs runes i := by
  unfold skipWs
  omega

/-- The whitespace skip advances when a space rune follows. -/
theorem skipWs_advances (runes : GoStr) (i : Nat)
    (h1 : i + 1 < runes.length) (h2 : isGoSpace (runes.getD (i + 1) ' ')) :
    i + 1 ≤ skipWs runes i := by
  unfold skipWs
  cases hd : runes.drop (i + 1) with
  | nil =>
    have := congrArg List.length hd
    rw [List.length_drop] at this
    simp at this
    omega
  | cons a t =>
    have hhead : a = runes.getD (i + 1) ' ' := by
      have h3 : (runes.drop (i + 1)).head? = some a := by rw [hd]; rfl
      rw [List.head?_drop] at h3
      rw [List.getD_eq_getElem?_getD, h3]
      rfl
    have ha : isGoSpace a = true := by rw [hhead]; exact h2
    rw [List.takeWhile_cons, ha]
    simp only [if_true, List.length_cons]
    omega

/-- Past the end of the text, the whitespace skip stays put. -/
theorem skipWs_at_end (runes : GoStr) (i : Nat) (h : runes.length ≤ i + 1) :
    skipWs runes i = i := by
  unfold skipWs
  rw [List.drop_eq_nil_of_le h]
  rfl

/-- Weakening of the segment-chain lower bound. -/
theorem SegChain.mono {n gap lb lb' : Nat} {l : List Segment}
    (h : SegChain n gap lb l) (hle : lb' ≤ lb) : SegChain n gap lb' l := by
  cases h with
  | nil => exact .nil _
  | cons lb s rest h1 h2 h3 h4 h5 =>
    exact .cons _ _ _ (le_trans hle h1) h2 h3 h4 h5

/-- The paragraphs produced by `splitParagraphsAux` form a chain with gap 2
starting at the scan position. -/
theorem segChain_splitParagraphsAux (text : GoStr) (start : Nat) :
    SegChain text.length 2 start (splitParagraphsAux text start) := by
  rw [splitParagraphsAux]
  by_cases h : start < text.length
  · rw [dif_pos h]
    cases hg : goIndex (text.drop start) (gs "\n\n") with
    | none =>
      refine .cons _ _ _ le_rfl (le_of_lt h) ?_ le_rfl (.nil _)
      calc (trimSpace (text.drop start)).length
          ≤ (text.drop start).length := trimSpace_length_le _
        _ = text.length - start := List.length_drop _ _
    | some i =>
      have hb := goIndex_bound _ _ i hg
      rw [List.length_drop] at hb
      have hnn : (gs "\n\n").length = 2 := rfl
      rw [hnn] at hb
      have hrest := segChain_splitParagraphsAux text (start + i + 2)
      by_cases hpe : trimSpace (slice text start (start + i)) ≠ []
      · simp only [if_pos hpe, List.singleton_append]
        refine .cons _ _ _ le_rfl (by show start ≤ start + i; omega)
          ?_ (by show start + i ≤ text.length; omega) hrest
        calc (trimSpace (slice text start (start + i))).length
            ≤ (slice text start (start + i)).length := trimSpace_length_le _
          _ ≤ (start + i) - start := slice_length_le _ _ _
      · simp only [if_neg hpe, List.nil_append]
        exact hrest.mono (by omega)
  · rw [dif_neg h]
    exact .nil _
termination_by text.length - start
decreasing_by
  have hb2 := goIndex_bound _ _ i hg
  have hnn2 : (gs "\n\n").length = 2 := rfl
  rw [hnn2, List.length_drop] at hb2
  omega

/-- The sentences produced by `findSentencesAux` form a chain with gap 1
starting at the current sentence start. -/
theorem segChain_findSentencesAux (runes : GoStr) (start i : Nat)
    (hsi : start ≤ i) :
    SegChain runes.length 1 start (findSentencesAux runes start i) := by
  rw [findSentencesAux]
  by_cases h : i < runes.length
  · rw [dif_pos h]
    by_cases hb : (isTerm (runes.getD i ' ') ∧
        (i + 1 ≥ runes.length ∨
         (i + 2 < runes.length ∧ isGoSpace (runes.getD (i + 1) ' ') ∧
          isUpperGo (runes.getD (i + 2) ' '))))
    · rw [if_pos hb]
      have hrest : SegChain runes.length 1 (skipWs runes i + 1)
          (findSentencesAux runes (skipWs runes i + 1) (skipWs runes i + 1)) :=
        segChain_findSentencesAux runes (skipWs runes i + 1) (skipWs runes i + 1)
          le_rfl
      have hrest2 : SegChain runes.length 1 (i + 2)
          (findSentencesAux runes (skipWs runes i + 1) (skipWs runes i + 1)) := by
        rcases hb.2 with hend | ⟨h2, hsp, _⟩
        · have hi2 : skipWs runes i = i := skipWs_at_end runes i (by omega)
          rw [hi2]
          have hfe : findSentencesAux runes (i + 1) (i + 1) = [] := by
            rw [findSentencesAux]
            rw [dif_neg (by omega)]
            rw [if_neg (by omega)]
          rw [hfe]
          exact .nil _
        · exact hrest.mono (by have := skipWs_advances runes i (by omega) hsp; omega)
      by_cases hse : trimSpace (slice runes start (i + 1)) ≠ []
      · simp only [if_pos hse, List.singleton_append]
        refine .cons _ _ _ le_rfl (by show start ≤ i + 1; omega)
          (by
            show (trimSpace (slice runes start (i + 1))).length ≤ (i + 1) - start
            calc (trimSpace (slice runes start (i + 1))).length
                ≤ (slice runes start (i + 1)).length := trimSpace_length_le _
              _ ≤ (i + 1) - start := slice_length_le _ _ _)
          (by show i + 1 ≤ runes.length; omega) hrest2
      · simp only [if_neg hse, List.nil_append]
        exact hrest2.mono (by have := le_skipWs runes i; omega)
    · rw [if_neg hb]
      exact segChain_findSentencesAux runes start (i + 1) (by omega)
  · rw [dif_neg h]
    by_cases hs : start < runes.length
    · rw [if_pos hs]
      by_cases hse : trimSpace (runes.drop start) ≠ []
      · rw [if_pos hse]
        refine .cons _ _ _ le_rfl (le_of_lt hs) ?_ le_rfl (.nil _)
        calc (trimSpace (runes.drop start)).length
            ≤ (runes.drop start).length := trimSpace_length_le _
          _ = runes.length - start := List.length_drop _ _
      · rw [if_neg hse]
        exact .nil _
    · rw [if_neg hs]
      exact .nil _
termination_by runes.length - i
decreasing_by
  · have := le_skipWs runes i
    omega
  · omega

/-- Weakening of the chunk-chain lower bound. -/
theorem ChunkChain.mono_lb {hi lb lb' : Int} {l : List Chunk}
    (h : ChunkChain hi lb l) (hle : lb' ≤ lb) : ChunkChain hi lb' l := by
  cases h with
  | nil => exact .nil _
  | cons lb c rest h1 h2 h3 h4 => exact .cons _ _ _ (le_trans hle h1) h2 h3 h4

/-- Concatenation of chunk chains across a midpoint. -/
theorem chunkChain_append {hi mid : Int} {l2 : List Chunk}
    (h2 : ChunkChain hi mid l2) (hmh : mid ≤ hi) :
    ∀ {lb : Int} {l1 : List Chunk}, ChunkChain mid lb l1 → lb ≤ mid →
      ChunkChain hi lb (l1 ++ l2) := by
  intro lb l1 h1
  induction h1 with
  | nil lb0 =>
    intro hlm
    exact h2.mono_lb hlm
  | cons lb0 c rest hc1 hc2 hc3 hc4 ih =>
    intro _
    exact .cons _ _ _ hc1 hc2 (le_trans hc3 hmh) (ih hc3)

/-- Every member of a chain from a non-negative bound satisfies the
position bounds of claim C5. -/
theorem chunkChain_wf {hi lb : Int} {l : List Chunk} (h : ChunkChain hi lb l) :
    0 ≤ lb → ∀ c ∈ l, 0 ≤ c.startPos ∧ c.startPos < c.endPos ∧ c.endPos ≤ hi := by
  induction h with
  | nil =>
    intro _ c hc
    cases hc
  | cons lb0 c rest h1 h2 h3 h4 ih =>
    intro hlb d hd
    rcases List.mem_cons.mp hd with rfl | hd
    · exact ⟨le_trans hlb h1, h2, h3⟩
    · exact ih (by omega) d hd

/-- Consecutive pairs of a chain: both well-formed and separated. -/
theorem chunkChain_pairs {hi lb : Int} {l : List Chunk} (h : ChunkChain hi lb l) :
    0 ≤ lb → ∀ p ∈ l.zip l.tail,
      (0 ≤ p.1.startPos ∧ p.1.startPos < p.1.endPos) ∧
      p.1.endPos ≤ p.2.startPos ∧ p.2.startPos < p.2.endPos ∧ p.2.endPos ≤ hi := by
  induction h with
  | nil =>
    intro _ p hp
    cases hp
  | cons lb0 c rest h1 h2 h3 h4 ih =>
    intro hlb p hp
    cases rest with
    | nil => cases hp
    | cons c2 rest2 =>
      simp only [List.tail_cons, List.zip_cons_cons] at hp
      rcases List.mem_cons.mp hp with rfl | hp2
      · cases h4 with
        | cons _ _ _ g1 g2 g3 g4 => exact ⟨⟨le_trans hlb h1, h2⟩, g1, g2, g3⟩
      · have := ih (by omega) p
        simp only [List.tail_cons] at this
        exact this hp2

/-- Bounds recovered from a successful checked slice. -/
theorem sliceChecked_some_bounds {s : GoStr} {a b : Int} {r : GoStr}
    (h : sliceChecked s a b = some r) : 0 ≤ a ∧ a ≤ b ∧ b ≤ (s.length : Int) := by
  unfold sliceChecked at h
  split at h
  · assumption
  · cases h

/-- Well-formedness of the chunk produced by one overlap step, given
well-formed, separated neighbours. -/
theorem overlapOne_wf {fullText : GoStr} {overlap : Int} {prev cur c : Chunk}
    {hi : Int}
    (hprev : 0 ≤ prev.startPos ∧ prev.startPos < prev.endPos)
    (hsep : prev.endPos ≤ cur.startPos)
    (hcur : cur.startPos < cur.endPos ∧ cur.endPos ≤ hi)
    (h : overlapOne fullText overlap prev cur = some c) :
    0 ≤ c.startPos ∧ c.startPos < c.endPos ∧ c.endPos ≤ hi := by
  unfold overlapOne at h
  cases hs1 : sliceChecked fullText (clampedOverlapStart fullText overlap prev)
      prev.endPos with
  | none => rw [hs1] at h; cases h
  | some rawOverlap =>
    rw [hs1] at h
    cases hs2 : sliceChecked fullText cur.startPos cur.endPos with
    | none => rw [hs2] at h; cases h
    | some rawMain =>
      rw [hs2] at h
      injection h with h3
      rw [← h3]
      have hb := sliceChecked_some_bounds hs1
      exact ⟨hb.1, by show clampedOverlapStart fullText overlap prev < cur.endPos; omega,
        hcur.2⟩

/-- Well-formedness of the overlap loop output. -/
theorem overlapMap_wf {fullText : GoStr} {overlap hi : Int} :
    ∀ (pairs : List (Chunk × Chunk)) (res : List Chunk),
      overlapMap fullText overlap pairs = some res →
      (∀ p ∈ pairs, (0 ≤ p.1.startPos ∧ p.1.startPos < p.1.endPos) ∧
        p.1.endPos ≤ p.2.startPos ∧ p.2.startPos < p.2.endPos ∧ p.2.endPos ≤ hi) →
      ∀ c ∈ res, 0 ≤ c.startPos ∧ c.startPos < c.endPos ∧ c.endPos ≤ hi := by
  intro pairs
  induction pairs with
  | nil =>
    intro res h hp c hc
    unfold overlapMap at h
    injection h with h1
    subst h1
    cases hc
  | cons p rest ih =>
    intro res h hp c hc
    unfold overlapMap at h
    cases ho : overlapOne fullText overlap p.1 p.2 with
    | none => rw [ho] at h; cases h
    | some c1 =>
      rw [ho] at h
      cases hm : overlapMap fullText overlap rest with
      | none => rw [hm] at h; cases h
      | some cs =>
        rw [hm] at h
        injection h with h1
        subst h1
        rcases List.mem_cons.mp hc with rfl | hc2
        · have hpp := hp p (List.mem_cons_self _ _)
          exact overlapOne_wf ⟨hpp.1.1, hpp.1.2⟩ hpp.2.1 ⟨hpp.2.2.1, hpp.2.2.2⟩ ho
        · exact ih cs hm (fun q hq => hp q (List.mem_cons_of_mem _ hq)) c hc2

/-- Well-formedness survives `applyOverlap`. -/
theorem applyOverlap_wf {fullText : GoStr} {chunks res : List Chunk}
    {overlap hi : Int} (hch : ChunkChain hi 0 chunks)
    (h : applyOverlap fullText chunks overlap = some res) :
    ∀ c ∈ res, 0 ≤ c.startPos ∧ c.startPos < c.endPos ∧ c.endPos ≤ hi := by
  unfold applyOverlap at h
  cases chunks with
  | nil =>
    injection h with h1
    subst h1
    intro c hc
    cases hc
  | cons c0 rest =>
    have h2 : (match overlapMap fullText overlap ((c0 :: rest).zip rest) with
        | none => none
        | some tail => some (c0 :: tail)) = some res := h
    cases hm : overlapMap fullText overlap ((c0 :: rest).zip rest) with
    | none => rw [hm] at h2; cases h2
    | some tail =>
      rw [hm] at h2
      injection h2 with h1
      subst h1
      intro c hc
      rcases List.mem_cons.mp hc with rfl | hc2
      · exact chunkChain_wf hch le_rfl c (List.mem_cons_self _ _)
      · exact overlapMap_wf _ tail hm (chunkChain_pairs hch le_rfl) c hc2

/-- A non-empty trim forces a non-empty string. -/
theorem ne_nil_of_trim {s : GoStr} (h : trimSpace s ≠ []) : s ≠ [] := by
  intro hc
  exact h (by rw [hc]; rfl)

/-- One positive length from a non-empty trim. -/
theorem one_le_length_of_trim {s : GoStr} (h : trimSpace s ≠ []) :
    1 ≤ s.length := by
  have h1 : 1 ≤ (trimSpace s).length := List.length_pos.mpr h
  have h2 := trimSpace_length_le s
  omega

/-- The sentence-builder flush yields a well-formed singleton chain. -/
theorem sentFlush_chain {basePos : Nat} {current : GoStr} {currentStart : Nat}
    {blb hi : Int}
    (hne : current ≠ [] → blb ≤ (basePos + currentStart : Int) ∧
      (basePos + currentStart + current.length : Int) ≤ hi) :
    ChunkChain hi blb (sentFlush basePos current currentStart) := by
  unfold sentFlush
  by_cases hce : trimSpace current ≠ []
  · rw [if_pos hce]
    obtain ⟨h1, h2⟩ := hne (ne_nil_of_trim hce)
    refine .cons _ _ _ h1 ?_ h2 (.nil _)
    show (basePos + currentStart : Int) < (basePos + currentStart + current.length : Int)
    have := one_le_length_of_trim hce
    omega
  · rw [if_neg hce]
    exact .nil _

/-- The merge-builder flush yields a well-formed singleton chain. -/
theorem mergeFlush_chain {current : GoStr} {currentStart blb hi : Int}
    (hne : current ≠ [] → blb ≤ currentStart ∧
      currentStart + (current.length : Int) ≤ hi) :
    ChunkChain hi blb (mergeFlush current currentStart) := by
  unfold mergeFlush
  by_cases hce : trimSpace current ≠ []
  · rw [if_pos hce]
    obtain ⟨h1, h2⟩ := hne (ne_nil_of_trim hce)
    refine .cons _ _ _ h1 ?_ h2 (.nil _)
    show currentStart < currentStart + (current.length : Int)
    have := one_le_length_of_trim hce
    omega
  · rw [if_neg hce]
    exact .nil _

/-- The sentence-packing loop turns a sentence chain into a well-formed,
separated chunk chain. -/
theorem chunkChain_sentLoop (basePos n : Nat) (opts : ChunkOptions) :
    ∀ (sents : List Segment) (current : GoStr) (currentStart lbs : Nat)
      (blb : Int),
      SegChain n 1 lbs sents →
      SentInv n lbs basePos current currentStart blb →
      ChunkChain (basePos + n : Int) blb
        (sentLoop basePos opts sents current currentStart) := by
  intro sents
  induction sents with
  | nil =>
    intro current currentStart lbs blb hch hinv
    obtain ⟨hblb0, hinv2⟩ := hinv
    show ChunkChain _ _ (sentFlush basePos current currentStart)
    refine sentFlush_chain ?_
    intro hne
    rw [if_neg hne] at hinv2
    refine ⟨hinv2.1, ?_⟩
    have := hinv2.2.1
    push_cast
    omega
  | cons s rest ih =>
    intro current currentStart lbs blb hch hinv
    obtain ⟨hblb0, hinv2⟩ := hinv
    cases hch with
    | cons _ _ _ hc1 hc2 hc3 hc4 hc5 =>
      simp only [sentLoop]
      by_cases hcl : current.length > 0
      · have hne : current ≠ [] := by
          intro hc
          rw [hc] at hcl
          simp at hcl
        rw [if_neg hne] at hinv2
        obtain ⟨hb1, hb2, hb3⟩ := hinv2
        rw [if_pos hcl]
        by_cases hproj :
            (((current.length + 1 + s.content.length : Nat) : Int) > opts.chunkSize)
        · rw [if_pos ⟨hproj, hcl⟩]
          refine chunkChain_append
            (ih s.content s.startPos (s.endPos + 1)
              (basePos + currentStart + current.length : Int) hc5 ⟨by omega, ?_⟩)
            (by push_cast; omega)
            (sentFlush_chain ?_) ?_
          · by_cases hsc : s.content = []
            · rw [if_pos hsc]
              push_cast
              omega
            · rw [if_neg hsc]
              refine ⟨by push_cast; omega, by omega, by omega⟩
          · intro _
            exact ⟨hb1, le_rfl⟩
          · push_cast
            omega
        · rw [if_neg (fun hc => hproj hc.1)]
          rw [if_neg (by omega)]
          refine ih (current ++ ' ' :: s.content) currentStart (s.endPos + 1)
            blb hc5 ⟨hblb0, ?_⟩
          have hnne : current ++ ' ' :: s.content ≠ [] := by
            intro hc
            have := congrArg List.length hc
            simp at this
          rw [if_neg hnne]
          have hlen : (current ++ ' ' :: s.content).length =
              current.length + 1 + s.content.length := by
            simp [List.length_append]
            omega
          refine ⟨hb1, ?_, ?_⟩
          · rw [hlen]
            omega
          · rw [hlen]
            omega
      · have hemp : current = [] := List.length_eq_zero.mp (by omega)
        rw [if_pos hemp] at hinv2
        rw [if_neg (fun hc => absurd hc.2 hcl)]
        rw [if_pos (by omega)]
        refine ih s.content s.startPos (s.endPos + 1) blb hc5 ⟨hblb0, ?_⟩
        by_cases hsc : s.content = []
        · rw [if_pos hsc]
          push_cast
          push_cast at hinv2
          omega
        · rw [if_neg hsc]
          refine ⟨by push_cast; push_cast at hinv2; omega, by omega, by omega⟩

/-- A non-empty paragraph split by sentences yields a well-formed chain
within the paragraph's span. -/
theorem chunkChain_splitBySentences (text : GoStr) (basePos : Nat)
    (opts : ChunkOptions) (ht : text ≠ []) :
    ChunkChain (basePos + text.length : Int) (basePos : Int)
      (splitBySentences text basePos opts) := by
  unfold splitBySentences
  by_cases hs : findSentences text = []
  · rw [if_pos hs]
    refine .cons _ _ _ le_rfl ?_ le_rfl (.nil _)
    show (basePos : Int) < (basePos + text.length : Int)
    have : 1 ≤ text.length := List.length_pos.mpr ht
    omega
  · rw [if_neg hs]
    refine chunkChain_sentLoop basePos text.length opts _ [] 0 0 (basePos : Int)
      (segChain_findSentencesAux text 0 0 le_rfl) ⟨by omega, ?_⟩
    rw [if_pos rfl]
    push_cast
    omega

/-- The paragraph-merging loop turns a paragraph chain into a well-formed,
separated chunk chain. -/
theorem chunkChain_mergeLoop (n : Nat) (opts : ChunkOptions)
    (hcs : 0 ≤ opts.chunkSize) :
    ∀ (paras : List Segment) (current : GoStr) (currentStart blb : Int)
      (lbs : Nat),
      SegChain n 2 lbs paras →
      MergeInv n lbs current currentStart blb →
      ChunkChain (n : Int) blb (mergeLoop opts paras current currentStart) := by
  intro paras
  induction paras with
  | nil =>
    intro current currentStart blb lbs hch hinv
    obtain ⟨hblb0, hinv2⟩ := hinv
    show ChunkChain _ _ (mergeFlush current currentStart)
    refine mergeFlush_chain ?_
    intro hne
    rw [if_neg hne] at hinv2
    exact ⟨hinv2.2.1, by push_cast; push_cast at hinv2; omega⟩
  | cons para rest ih =>
    intro current currentStart blb lbs hch hinv
    obtain ⟨hblb0, hinv2⟩ := hinv
    cases hch with
    | cons _ _ _ hc1 hc2 hc3 hc4 hc5 =>
      simp only [mergeLoop]
      by_cases hover : ((para.content.length : Int) > opts.chunkSize)
      · rw [if_pos hover]
        have hcne : para.content ≠ [] := by
          intro hc
          rw [hc] at hover
          simp at hover
          omega
        have hblm : blb ≤ (para.startPos : Int) := by
          by_cases hce : current = []
          · rw [if_pos hce] at hinv2
            rcases hinv2 with ⟨_, h2⟩ | ⟨_, h2, h3⟩
            · push_cast at h2 ⊢
              omega
            · push_cast at h2 h3 ⊢
              omega
          · rw [if_neg hce] at hinv2
            push_cast at hinv2 ⊢
            omega
        have hsent := chunkChain_splitBySentences para.content para.startPos opts hcne
        have hrec := ih [] (-1) (para.startPos + para.content.length : Int)
          (para.endPos + 2) hc5
          ⟨by omega, by rw [if_pos rfl]; exact Or.inl ⟨rfl, by push_cast; omega⟩⟩
        have hflush : ChunkChain (para.startPos : Int) blb
            (mergeFlush current currentStart) := by
          refine mergeFlush_chain ?_
          intro hne
          rw [if_neg hne] at hinv2
          refine ⟨hinv2.2.1, ?_⟩
          push_cast at hinv2 ⊢
          omega
        have hAB : ChunkChain (para.startPos + para.content.length : Int) blb
            (mergeFlush current currentStart ++
              splitBySentences para.content para.startPos opts) :=
          chunkChain_append hsent (by push_cast; omega) hflush hblm
        have := chunkChain_append hrec (by push_cast; omega) hAB
          (by push_cast; omega)
        simpa [List.append_assoc] using this
      · rw [if_neg hover]
        by_cases hcl : current.length > 0
        · have hne : current ≠ [] := by
            intro hc
            rw [hc] at hcl
            simp at hcl
          rw [if_neg hne] at hinv2
          obtain ⟨hb0, hb1, hb2, hb3⟩ := hinv2
          rw [if_pos hcl]
          by_cases hproj :
              (((current.length + 2 + para.content.length : Nat) : Int) > opts.chunkSize)
          · rw [if_pos ⟨hproj, hcl⟩]
            have hrec := ih para.content (para.startPos : Int)
              (currentStart + (current.length : Int)) (para.endPos + 2) hc5
              ⟨by omega, ?_⟩
            · refine chunkChain_append hrec (by push_cast at hb2 ⊢; omega)
                (mergeFlush_chain ?_) ?_
              · intro _
                exact ⟨hb1, le_rfl⟩
              · omega
            · by_cases hsc : para.content = []
              · rw [if_pos hsc]
                refine Or.inr ⟨by omega, by push_cast; omega, by push_cast at hb3 ⊢; omega⟩
              · rw [if_neg hsc]
                refine ⟨by omega, by push_cast at hb3 ⊢; omega, by push_cast; omega,
                  by push_cast; omega⟩
          · rw [if_neg (fun hc => hproj hc.1)]
            rw [if_neg (show ¬ currentStart = -1 by omega), if_pos hcl]
            refine ih (current ++ gs "\n\n" ++ para.content) currentStart blb
              (para.endPos + 2) hc5 ⟨hblb0, ?_⟩
            have hlen : (current ++ gs "\n\n" ++ para.content).length =
                current.length + 2 + para.content.length := by
              simp [List.length_append, gs]
              omega
            have hnne : current ++ gs "\n\n" ++ para.content ≠ [] := by
              intro hc
              rw [hc] at hlen
              simp at hlen
              omega
            rw [if_neg hnne]
            rw [hlen]
            refine ⟨hb0, hb1, ?_, ?_⟩
            · push_cast at hb3 ⊢
              omega
            · push_cast at hb3 ⊢
              omega
        · have hemp : current = [] := List.length_eq_zero.mp (by omega)
          rw [if_pos hemp] at hinv2
          rw [if_neg (fun hc => absurd hc.2 hcl)]
          subst hemp
          rw [if_neg hcl]
          simp only [List.nil_append]
          rcases hinv2 with ⟨hm1, hm2⟩ | ⟨hm1, hm2, hm3⟩
          · rw [if_pos hm1]
            refine ih para.content (para.startPos : Int) blb (para.endPos + 2) hc5
              ⟨hblb0, ?_⟩
            by_cases hsc : para.content = []
            · rw [if_pos hsc]
              refine Or.inr ⟨by omega, by push_cast; omega, by push_cast at hm2 ⊢; omega⟩
            · rw [if_neg hsc]
              refine ⟨by omega, by push_cast at hm2 ⊢; omega, by push_cast; omega,
                by push_cast; omega⟩
          · rw [if_neg (show ¬ currentStart = -1 by omega)]
            refine ih para.content currentStart blb (para.endPos + 2) hc5
              ⟨hblb0, ?_⟩
            by_cases hsc : para.content = []
            · rw [if_pos hsc]
              refine Or.inr ⟨by omega, by push_cast at hm2 ⊢; omega, hm3⟩
            · rw [if_neg hsc]
              refine ⟨by omega, hm3, by push_cast at hm2 ⊢; omega,
                by push_cast at hm2 ⊢; omega⟩

/-- Unfolding step of `splitParagraphsAux` when no blank line remains. -/
theorem splitParagraphsAux_stop (text : GoStr) (start : Nat)
    (h : start < text.length)
    (hg : goIndex (text.drop start) (gs "\n\n") = none) :
    splitParagraphsAux text start =
      [⟨trimSpace (text.drop start), start, text.length⟩] := by
  rw [splitParagraphsAux, dif_pos h, hg]

/-- Unfolding step of `splitParagraphsAux` at a blank line. -/
theorem splitParagraphsAux_step (text : GoStr) (start i : Nat)
    (h : start < text.length)
    (hg : goIndex (text.drop start) (gs "\n\n") = some i) :
    splitParagraphsAux text start =
      (if trimSpace (slice text start (start + i)) ≠ []
       then [⟨trimSpace (slice text start (start + i)), start, start + i⟩]
       else []) ++ splitParagraphsAux text (start + i + 2) := by
  rw [splitParagraphsAux, dif_pos h, hg]

/-- Every chunk of a successful `mergeAndSplit` over a paragraph chain lies
within the text. -/
theorem mergeAndSplit_wf (fullText : GoStr) (paragraphs : List Segment)
    (opts : ChunkOptions) (hcs : 0 ≤ opts.chunkSize)
    (hseg : SegChain fullText.length 2 0 paragraphs) :
    ∀ res, mergeAndSplit fullText paragraphs opts = some res →
      ∀ c ∈ res, 0 ≤ c.startPos ∧ c.startPos < c.endPos ∧
        c.endPos ≤ (fullText.length : Int) := by
  intro res h c hc
  have hchain : ChunkChain (fullText.length : Int) 0
      (mergeLoop opts paragraphs [] (-1)) :=
    chunkChain_mergeLoop fullText.length opts hcs paragraphs [] (-1) 0 0 hseg
      ⟨le_rfl, by rw [if_pos rfl]; exact Or.inl ⟨rfl, by norm_num⟩⟩
  simp only [mergeAndSplit] at h
  by_cases hov : (opts.overlap > 0 ∧ (mergeLoop opts paragraphs [] (-1)).length > 1)
  · rw [if_pos hov] at h
    exact applyOverlap_wf hchain h c hc
  · rw [if_neg hov] at h
    injection h with h1
    subst h1
    exact chunkChain_wf hchain le_rfl c hc

/-- Claim C5 (amended): every chunk of a successful run of the chunker has
`0 ≤ startPos < endPos ≤ len(T)`, and empty or whitespace-only input yields
zero chunks.  (The content of a chunk need not match the trimmed source
span, and `Split` can panic — return `none` — inside `applyOverlap`; see
the counterexample.) -/
theorem chunker_bounds (text : GoStr) (opts : ChunkOptions) :
    (∀ cs, Split text opts = some cs → ∀ c ∈ cs,
      0 ≤ c.startPos ∧ c.startPos < c.endPos ∧
        c.endPos ≤ (text.length : Int)) ∧
    (trimSpace text = [] → Split text opts = some []) := by
  have hlen : (trimSpace text).length ≤ text.length := trimSpace_length_le text
  constructor
  · intro cs hsp c hc
    simp only [Split] at hsp
    by_cases hT : trimSpace text = []
    · rw [if_pos hT] at hsp
      injection hsp with h1
      subst h1
      cases hc
    · rw [if_neg hT] at hsp
      by_cases hfit : (((trimSpace text).length : Int) ≤
          (if opts.chunkSize ≤ 0 then defaultChunkSize else opts.chunkSize))
      · rw [if_pos hfit] at hsp
        injection hsp with h1
        subst h1
        rcases List.mem_cons.mp hc with rfl | h2
        · have h1 := List.length_pos.mpr hT
          refine ⟨le_rfl, ?_, ?_⟩
          · show (0 : Int) < ((trimSpace text).length : Int)
            exact_mod_cast h1
          · show ((trimSpace text).length : Int) ≤ (text.length : Int)
            exact_mod_cast hlen
        · cases h2
      · rw [if_neg hfit] at hsp
        have hcs0 : (0 : Int) ≤
            (if opts.chunkSize ≤ 0 then defaultChunkSize else opts.chunkSize) := by
          split
          · norm_num [defaultChunkSize]
          · omega
        have hb := mergeAndSplit_wf (trimSpace text)
          (splitParagraphs (trimSpace text)) _ hcs0
          (segChain_splitParagraphsAux (trimSpace text) 0) cs hsp c hc
        refine ⟨hb.1, hb.2.1, le_trans hb.2.2 ?_⟩
        exact_mod_cast hlen
  · intro hT
    simp only [Split]
    rw [if_pos hT]

/-- Claim C5, content conjunct refuted: on `"aaaa\n\n bbbb"` with chunk
size 5 and no overlap the second chunk has content `"bbbb"`, but the
trimmed source span `T[6:10]` is `"bbb"` (the span misses the final rune:
`mergeFlush` ends the span at `currentStart + len(current)` although
`currentStart` points at the whitespace rune preceding the paragraph). -/
theorem chunker_content_mismatch :
    Split (gs "aaaa\n\n bbbb") ⟨5, 0⟩ =
      some [⟨gs "aaaa", 0, 4⟩, ⟨gs "bbbb", 6, 10⟩] ∧
    trimSpace (slice (gs "aaaa\n\n bbbb") 6 10) = gs "bbb" ∧
    gs "bbbb" ≠ gs "bbb" := by
  refine ⟨?_, by decide, by decide⟩
  have hp : splitParagraphs (gs "aaaa\n\n bbbb") =
      [⟨gs "aaaa", 0, 4⟩, ⟨gs "bbbb", 6, 11⟩] := by
    rw [splitParagraphs,
      splitParagraphsAux_step (gs "aaaa\n\n bbbb") 0 4 (by decide) (by decide),
      splitParagraphsAux_stop (gs "aaaa\n\n bbbb") (0 + 4 + 2) (by decide)
        (by decide)]
    decide
  have hsplit : Split (gs "aaaa\n\n bbbb") ⟨5, 0⟩ =
      mergeAndSplit (gs "aaaa\n\n bbbb")
        (splitParagraphs (gs "aaaa\n\n bbbb")) ⟨5, 0⟩ := rfl
  rw [hsplit, hp]
  decide

/-- Witness for the amended claim C5 at concrete inputs: `"hello"` with
the default options yields one in-bounds chunk, and a whitespace-only
input yields zero chunks. -/
theorem chunker_bounds_witness :
    (∀ c ∈ [(⟨gs "hello", 0, 5⟩ : Chunk)],
      0 ≤ c.startPos ∧ c.startPos < c.endPos ∧
        c.endPos ≤ ((gs "hello").length : Int)) ∧
    Split (gs "  ") defaultOptions = some [] :=
  ⟨(chunker_bounds (gs "hello") defaultOptions).1 [⟨gs "hello", 0, 5⟩]
      (by decide),
   (chunker_bounds (gs "  ") defaultOptions).2 (by decide)⟩

/-- Claim C1, evaluated at the failing input.  The fixture state holds two
stale vectors `d:0`, `d:1` from an earlier embedding; re-embedding the
document, whose content now chunks into a single chunk, completes
successfully, leaves exactly one chunk row for `d` in the Catalog — and
two vector entries keyed `d:*`, because `embedDocument` deletes only the
chunk rows (its comment at part_019 line 276 claims chunks AND vectors)
and `DeleteByPrefix` is an unimplemented stub.  The invariant
`|chunks(d)| = |key prefix d:|` claimed by the spec is violated: 1 ≠ 2. -/
theorem embedDocument_keeps_stale_vectors :
    (embedDocument (fun texts => .ok (texts.map (fun _ => [0])))
        fixtureState fixtureDoc).map
      (fun r => (r.2,
        (r.1.db.chunks.filter (fun ch => decide (ch.documentId = gs "d"))).length,
        (r.1.vectors.entries.filter (fun e => hasPfx e.1 (gs "d:"))).length))
    = some (.completed, 1, 2) := by decide

/-! ## Theorems for claim C2 (remove_file cascade) -/

/-- Claim C2, evaluated at the failing input.  Removing the fixture
document by its path succeeds and deletes its chunk rows, FTI entry and
collection memberships, and removal of a non-existent path returns
`ErrNotFound` — but both vector entries keyed `d:*` survive, because
`RemoveFile` never touches the vector store (spec §4.7.4 step 2 requires
deleting the chunk vectors). -/
theorem removeFile_keeps_vectors :
    ((removeFile fixtureState (gs "p")).map (fun st1 =>
        ((st1.db.chunks.filter (fun ch => decide (ch.documentId = gs "d"))).length,
         st1.fti,
         (st1.db.memberships.filter (fun m => decide (m.2 = gs "d"))).length,
         (st1.vectors.entries.filter (fun e => hasPfx e.1 (gs "d:"))).length))
      = .ok (0, [], 0, 2)) ∧
    removeFile fixtureState (gs "q") = .error .notFound :=
  ⟨by decide, by decide⟩

/-! ## Theorems for claim C7 (incremental skip in the worker) -/

/-- Frame fact: the discarded-error chunk insert never touches documents. -/
theorem insertChunkIgnored_documents (c : Catalog) (ch : ChunkRow) :
    (insertChunkIgnored c ch).documents = c.documents := by
  by_cases h : c.chunks.any (fun r => decide (r.id = ch.id)) <;>
    simp [insertChunkIgnored, insertChunk, h]

/-- Frame fact for the chunk-row insertion fold. -/
theorem foldl_insertChunk_documents (rows : List ChunkRow) (c : Catalog) :
    (rows.foldl insertChunkIgnored c).documents = c.documents := by
  induction rows generalizing c with
  | nil => rfl
  | cons r rest ih =>
    rw [List.foldl_cons, ih, insertChunkIgnored_documents]

/-- Frame fact: `embedDocument` never modifies the documents table or the
full-text index (it touches only chunk rows and vectors). -/
theorem embedDocument_frame (eb : List GoStr → Except Err (List (List Nat)))
    (st : IndexState) (doc : Document) (st' : IndexState) (o : EmbedOutcome)
    (h : embedDocument eb st doc = some (st', o)) :
    st'.db.documents = st.db.documents ∧ st'.fti = st.fti := by
  cases hs : Split doc.content defaultOptions with
  | none =>
    simp only [embedDocument, hs] at h
    cases h
  | some chunks =>
    simp only [embedDocument, hs] at h
    by_cases hc : chunks = []
    · rw [if_pos hc] at h
      injection h with h1
      rw [Prod.mk.injEq] at h1
      rw [← h1.1]
      exact ⟨rfl, rfl⟩
    · rw [if_neg hc] at h
      cases he : eb (chunks.map Chunk.content) with
      | error e =>
        rw [he] at h
        injection h with h1
        rw [Prod.mk.injEq] at h1
        rw [← h1.1]
        exact ⟨rfl, rfl⟩
      | ok embeds =>
        rw [he] at h
        injection h with h1
        rw [Prod.mk.injEq] at h1
        rw [← h1.1]
        refine ⟨?_, rfl⟩
        show (List.foldl insertChunkIgnored _ _).documents = _
        rw [foldl_insertChunk_documents]
        rfl

/-- Claim C7: when the Catalog already holds a document at the scanned
file's path whose stored mtime is at least the file's mtime, the worker
performs no parse and no write at all — the state is returned unchanged —
and still counts the file as indexed with no error.  When the stored mtime
is strictly smaller, the parser is invoked, and (when the parse and the two
storage writes succeed) the document is re-stored and re-indexed: the
documents table equals the upsert result and the FTI upserts the id, the
outcome again counted as indexed. -/
theorem worker_incremental_skip (env : WorkerEnv) (semantic : Bool)
    (st : IndexState) (file : FileInfo) :
    (∀ existing, getDocumentByPath st.db file.path = .ok existing →
        existing.modifiedAtUnix ≥ file.modifiedAt →
        processFile env semantic st file = some (st, .indexed, false)) ∧
    (∀ existing, getDocumentByPath st.db file.path = .ok existing →
        existing.modifiedAtUnix < file.modifiedAt →
        (∀ r, processFile env semantic st file = some r → r.2.2 = true) ∧
        (∀ doc, env.parse file = .ok doc → env.upsertErr = none →
          env.ftiErr = none →
          ∀ r, processFile env semantic st file = some r →
            r.1.db.documents = (upsertDocument st.db doc).documents ∧
            r.1.fti = ftiIndex st.fti doc.id ∧
            r.2.1 = .indexed ∧ r.2.2 = true)) := by
  constructor
  · intro existing hex hge
    simp only [processFile, hex]
    rw [if_pos hge]
  · intro existing hex hlt
    have hnge : ¬ existing.modifiedAtUnix ≥ file.modifiedAt := not_le.mpr hlt
    constructor
    · intro r hr
      simp only [processFile, hex] at hr
      rw [if_neg hnge] at hr
      cases hp : env.parse file with
      | error e =>
        rw [hp] at hr
        injection hr with h1
        rw [← h1]
      | ok doc =>
        rw [hp] at hr
        cases hu : env.upsertErr with
        | some e =>
          rw [hu] at hr
          injection hr with h1
          rw [← h1]
        | none =>
          rw [hu] at hr
          cases hf : env.ftiErr with
          | some e =>
            rw [hf] at hr
            injection hr with h1
            rw [← h1]
          | none =>
            rw [hf] at hr
            cases hsem : semantic with
            | false =>
              rw [hsem] at hr
              simp only [if_neg Bool.false_ne_true] at hr
              injection hr with h1
              rw [← h1]
            | true =>
              rw [hsem] at hr
              simp only [if_pos rfl] at hr
              cases hed : embedDocument env.embedBatch _ doc with
              | none => rw [hed] at hr; cases hr
              | some p =>
                rw [hed] at hr
                injection hr with h1
                rw [← h1]
    · intro doc hp hu hf r hr
      simp only [processFile, hex] at hr
      rw [if_neg hnge, hp, hu, hf] at hr
      cases hsem : semantic with
      | false =>
        rw [hsem] at hr
        simp only [if_neg Bool.false_ne_true] at hr
        injection hr with h1
        rw [← h1]
        exact ⟨rfl, rfl, rfl, rfl⟩
      | true =>
        rw [hsem] at hr
        simp only [if_pos rfl] at hr
        cases hed : embedDocument env.embedBatch
            ⟨⟨(upsertDocument st.db doc).documents, (upsertDocument st.db doc).chunks,
              (upsertDocument st.db doc).tags, (upsertDocument st.db doc).memberships⟩,
             ftiIndex st.fti doc.id, st.vectors⟩ doc with
        | none => rw [hed] at hr; cases hr
        | some p =>
          rw [hed] at hr
          injection hr with h1
          obtain ⟨st3, o⟩ := p
          have hfr := embedDocument_frame _ _ _ _ _ hed
          rw [← h1]
          refine ⟨?_, ?_, rfl, rfl⟩
          · rw [hfr.1]
          · rw [hfr.2]

/-- Witness for claim C7: the fixture document is stored with mtime 5; a
scan record at mtime 3 is skipped with the state unchanged, while a scan
record at mtime 9 is re-parsed and re-indexed. -/
theorem worker_incremental_skip_witness :
    (processFile ⟨fun _ => .ok fixtureDoc2, fun texts => .ok (texts.map (fun _ => [0])),
        none, none⟩ false fixtureState ⟨gs "p", 3, 0⟩ =
      some (fixtureState, .indexed, false)) ∧
    (∀ r, processFile ⟨fun _ => .ok fixtureDoc2, fun texts => .ok (texts.map (fun _ => [0])),
        none, none⟩ false fixtureState ⟨gs "p", 9, 0⟩ = some r →
      r.1.db.documents = (upsertDocument fixtureState.db fixtureDoc2).documents ∧
      r.1.fti = ftiIndex fixtureState.fti fixtureDoc2.id ∧
      r.2.1 = .indexed ∧ r.2.2 = true) :=
  ⟨(worker_incremental_skip _ _ _ _).1 fixtureDoc (by decide) (by decide),
   ((worker_incremental_skip _ _ _ _).2 fixtureDoc (by decide) (by decide)).2
     fixtureDoc2 rfl rfl rfl⟩

/-- Witness for claim C10: one key, zero vectors, on a non-empty store. -/
theorem addBatch_length_mismatch_noop_witness :
    ([gs "b"].length ≠ ([] : List (List Nat)).length) ∧
    (VectorStore.addBatch ⟨[(gs "a", [7])]⟩ [gs "b"] [] = ⟨[(gs "a", [7])]⟩ ∧
     (VectorStore.addBatch ⟨[(gs "a", [7])]⟩ [gs "b"] []).len =
        VectorStore.len ⟨[(gs "a", [7])]⟩) :=
  ⟨by decide, addBatch_length_mismatch_noop _ _ _ (by decide)⟩

end Mindcli
